import Mathlib

/-!
A shallow embedding of the query pipeline of `opaq` (query.go, client.go,
error.go): the structured-value model, configuration validation, input
decoding and collapse, data/metadata composition, the HTTP client's error
flow, output encoding, and the exit decision, together with theorems that
settle the specification's claims about them.

Go's dynamically typed `interface{}` value tree (decoded JSON) is modelled as
the closed variant `Value`; Go maps are modelled as association lists whose
insertion overwrites an existing key in place (matching Go map assignment,
which keeps the key set and replaces the value). Machine strings are Lean
`String`s; byte streams are `List Char`.
-/

namespace Opaq

/-- A decoded JSON-like structured value (`interface{}` holding the result of
`encoding/json` decoding): null, booleans, numbers, strings, arrays and
string-keyed objects. Numbers are modelled as integers. -/
inductive Value where
  | null
  | bool (b : Bool)
  | num (n : Int)
  | str (s : String)
  | arr (elems : List Value)
  | obj (fields : List (String × Value))

/-- Go map assignment `m[k] = v` on the association-list model: replace the
value at `k` in place if the key exists, otherwise add the binding. -/
def mapSet (m : List (String × Value)) (k : String) (v : Value) : List (String × Value) :=
  match m with
  | [] => [(k, v)]
  | (k', v') :: rest => if k' = k then (k, v) :: rest else (k', v') :: mapSet rest k v

/-- Go map assignment for `map[string]string` (the metadata mapping). -/
def smapSet (m : List (String × String)) (k : String) (v : String) : List (String × String) :=
  match m with
  | [] => [(k, v)]
  | (k', v') :: rest => if k' = k then (k, v) :: rest else (k', v') :: smapSet rest k v

/-- Lookup in the association-list model of a Go map. -/
def mapGet (m : List (String × Value)) (k : String) : Option Value :=
  match m with
  | [] => none
  | (k', v') :: rest => if k' = k then some v' else mapGet rest k

/-- Lookup in the `map[string]string` model. -/
def smapGet (m : List (String × String)) (k : String) : Option String :=
  match m with
  | [] => none
  | (k', v') :: rest => if k' = k then some v' else smapGet rest k

/-- `strings.Index(s, c)`-based first split: `cs = before ++ c :: after` with
`c` not in `before`; `none` when `c` does not occur. -/
def splitFirst (c : Char) (cs : List Char) : Option (List Char × List Char) :=
  match cs with
  | [] => none
  | x :: rest =>
      if x = c then some ([], rest)
      else match splitFirst c rest with
        | some (b, a) => some (x :: b, a)
        | none => none

/-- The key/value split of one metadata entry (query.go lines 98-103):
`strings.Index(meta, "=")`, key before, value after the first `=`; `none`
models the `panic("validation does not work for metadata")` branch. -/
def splitMeta (s : String) : Option (String × String) :=
  match splitFirst '=' s.toList with
  | some (k, v) => some (String.mk k, String.mk v)
  | none => none

/-- The metadata mapping loop of `query` (query.go lines 96-105): each entry is
split on its first `=` and assigned into the map, so a later duplicate key
overwrites the earlier value. `none` models the panic on an entry without `=`. -/
def buildMeta (entries : List String) : Option (List (String × String)) :=
  entries.foldlM (fun m e => (splitMeta e).map (fun kv => smapSet m kv.1 kv.2)) []

/-- The metadata `map[string]string` as a `Value` object. -/
def metaValue (m : List (String × String)) : Value :=
  .obj (m.map (fun kv => (kv.1, .str kv.2)))

/-- The outcome of payload composition: the `ErrInvalidConfiguration` wrap for
non-object data, or the (unreachable-after-validation) metadata panic. -/
inductive ComposeErr where
  | invalidConfig
  | panicNoEq
deriving DecidableEq

/-- The data/metadata composition section of `query` (query.go lines 94-126):
build the metadata mapping when entries are present; without a data field the
metadata (if any) is injected into the decoded object (failing on non-objects),
otherwise the decoded value passes through; with a data field a fresh object nests the
decoded value, plus the metadata field iff metadata is present. -/
def compose (decoded : Value) (metaEntries : List String)
    (metaField dataField : String) : Except ComposeErr Value :=
  match (if metaEntries.isEmpty then some none else
          match buildMeta metaEntries with
          | some m => some (some m)
          | none => none) with
  | none => .error .panicNoEq
  | some metadata =>
    if dataField = "" then
      match metadata with
      | some m =>
          match decoded with
          | .obj root => .ok (.obj (mapSet root metaField (metaValue m)))
          | _ => .error .invalidConfig
      | none => .ok decoded
    else
      match metadata with
      | some m => .ok (.obj (mapSet [(dataField, decoded)] metaField (metaValue m)))
      | none => .ok (.obj [(dataField, decoded)])

/-- `decoded` is an object/mapping. -/
def isObj (v : Value) : Bool :=
  match v with
  | .obj _ => true
  | _ => false

/-- The sentinel error kinds of error.go: `ErrInvalidConfiguration`,
`ErrInvalidInput`, `ErrRequestFailed`, `ErrUnexpectedResp`, `ErrExitWithNonZero`. -/
inductive ErrKind where
  | invalidConfiguration
  | invalidInput
  | requestFailed
  | unexpectedResp
  | exitWithNonZero
deriving DecidableEq

/-- The `QueryInput` record of client.go: the target URL, the composed payload
and the assembled headers. -/
structure QueryInput where
  url : String
  data : Value
  headers : List (String × String)

/-- A `goerr` error value: the sentinel kind it wraps (if any), the wrapped
message, and the diagnostic key/value context attached with `.With(...)`,
each context key modelled as its own optional field. -/
structure AppError where
  kind : Option ErrKind := none
  msg : String := ""
  target : Option String := none
  path : Option String := none
  code : Option Nat := none
  body : Option String := none
  inputCtx : Option QueryInput := none

/-- The `ErrExitWithNonZero` sentinel of error.go. -/
def errExitWithNonZero : AppError := { kind := some .exitWithNonZero, msg := "exit with non-zero" }

/-- The emptiness classification of a query result (query.go lines 249-260):
nil, a nil pointer (both the `null` of the model), and zero-length
maps/arrays/slices are empty; every other value - including `false`, `0` and
`""` - is non-empty. -/
def isEmpty (out : Value) : Bool :=
  match out with
  | .null => true
  | .obj m => m.isEmpty
  | .arr a => a.isEmpty
  | _ => false

/-- The exit decision at the tail of `query` (query.go lines 151-158):
`ErrExitWithNonZero` when fail-defined is set and the result is non-empty, or
when fail-undefined is set and the result is empty; success otherwise. -/
def decideExit (out : Value) (failDefined failUndefined : Bool) : Except AppError Unit :=
  if failDefined && !isEmpty out then .error errExitWithNonZero
  else if failUndefined && isEmpty out then .error errExitWithNonZero
  else .ok ()

/-- Go's regexp `\w` (ASCII word character). -/
def goWordChar (c : Char) : Bool := c.isAlphanum || c = '_'

/-- A character of the header-name class `[\w-]`. -/
def headerTokenChar (c : Char) : Bool := goWordChar c || c = '-'

/-- A character of the metadata-key class `[\w-_]`. -/
def metaKeyChar (c : Char) : Bool := goWordChar c || c = '-' || c = '_'

/-- The header rule `^[\w-]+:.+$` of `Validate` (query.go line 52): a non-empty
run of word/hyphen characters, a colon, then a non-empty remainder in which
`.` matches any character but a line break. -/
def headerMatch (s : String) : Bool :=
  match splitFirst ':' s.toList with
  | some (tok, rest) =>
      !tok.isEmpty && tok.all headerTokenChar && !rest.isEmpty && rest.all (· != '\n')
  | none => false

/-- The metadata rule `^[\w-_]+=.+$` of `Validate` (query.go line 70): a
non-empty run of word/hyphen/underscore characters, `=`, then a non-empty
remainder in which `.` matches any character but a line break. -/
def metaMatch (s : String) : Bool :=
  match splitFirst '=' s.toList with
  | some (key, rest) =>
      !key.isEmpty && key.all metaKeyChar && !rest.isEmpty && rest.all (· != '\n')
  | none => false

/-- The split of a URL at its first `://`: the scheme before it and the
host-and-path after it; `none` when no `://` occurs. -/
def findSchemeSplit : List Char → Option (List Char × List Char)
  | [] => none
  | ':' :: '/' :: '/' :: rest => some ([], rest)
  | c :: rest =>
      match findSchemeSplit rest with
      | some (b, a) => some (c :: b, a)
      | none => none

/-- Modelled from the spec: the third-party URL validator (`is.URL` of
ozzo-validation, not part of this repository's sources) per §4.1, "URL must be
present and parse as an absolute URL (scheme + host)": a non-empty scheme,
`://`, and a non-empty host (the part before the first path slash). -/
def isAbsURL (s : String) : Bool :=
  match findSchemeSplit s.toList with
  | some (scheme, hostpath) =>
      !scheme.isEmpty && !(hostpath.takeWhile (· != '/')).isEmpty
  | none => false

/-- The `queryConfig` record (query.go lines 20-32). -/
structure QueryConfig where
  URL : String
  FailDefined : Bool := false
  FailUndefined : Bool := false
  Input : String := "-"
  Output : String := "-"
  Format : String := "json"
  Headers : List String := []
  MetaData : List String := []
  MetaDataField : String := "metadata"
  DataField : String := ""

/-- The header loop of `Validate` (query.go lines 49-58): each header must be
non-empty (`Required`) and match the header rule; the first violation fails
with `ErrInvalidConfiguration` targeting `--header`. -/
def validateHeaders : List String → Except AppError Unit
  | [] => .ok ()
  | h :: rest =>
      if h != "" && headerMatch h then validateHeaders rest
      else .error { kind := some .invalidConfiguration, target := some "--header" }

/-- The metadata loop of `Validate` (query.go lines 67-76): each entry must be
non-empty and match the metadata rule; the first violation fails with
`ErrInvalidConfiguration` targeting `--metadata`. -/
def validateMeta : List String → Except AppError Unit
  | [] => .ok ()
  | m :: rest =>
      if m != "" && metaMatch m then validateMeta rest
      else .error { kind := some .invalidConfiguration, target := some "--metadata" }

/-- `queryConfig.Validate` (query.go lines 34-80): the URL must be present and
a valid URL; the format must be present and one of `json`/`yaml`; every header
must match the header rule; and when metadata entries are present the metadata
field must be non-empty and every entry must match the metadata rule. Each
violation wraps `ErrInvalidConfiguration` and names the offending flag. -/
def QueryConfig.Validate (cfg : QueryConfig) : Except AppError Unit :=
  if cfg.URL == "" || !isAbsURL cfg.URL then
    .error { kind := some .invalidConfiguration, target := some "--url" }
  else if cfg.Format == "" || !(cfg.Format == "json" || cfg.Format == "yaml") then
    .error { kind := some .invalidConfiguration, target := some "--format" }
  else
    match validateHeaders cfg.Headers with
    | .error e => .error e
    | .ok _ =>
        if cfg.MetaData.isEmpty then .ok ()
        else if cfg.MetaDataField == "" then
          .error { kind := some .invalidConfiguration, target := some "--metadata-field" }
        else validateMeta cfg.MetaData

/-- The configuration rules of spec §4.1, written from the spec's words as one
conjunction: URL present and absolute; format exactly `json` or `yaml`; every
header of the form `<token>: <value>` (single-line, non-empty value); and when
metadata entries are present, a non-empty metadata field name and every entry
of the form `<key>=<value>`. -/
def specConfigOk (cfg : QueryConfig) : Bool :=
  (cfg.URL != "") && isAbsURL cfg.URL
    && (cfg.Format == "json" || cfg.Format == "yaml")
    && cfg.Headers.all headerMatch
    && (cfg.MetaData.isEmpty
        || ((cfg.MetaDataField != "") && cfg.MetaData.all metaMatch))

/-- A decoded YAML document as gopkg.in/yaml.v2 produces it: scalars, sequences,
and mappings. `gmap` is the generic `map[interface{}]interface{}` the yaml
decoder emits (keys of any scalar shape); `smap` is a string-keyed
`map[string]interface{}` as produced by normalization. -/
inductive YamlVal where
  | null
  | bool (b : Bool)
  | num (n : Int)
  | str (s : String)
  | seq (xs : List YamlVal)
  | smap (kvs : List (String × YamlVal))
  | gmap (kvs : List (YamlVal × YamlVal))

mutual

/-- `fixInterfaceMap` (query.go lines 210-224): a generic mapping is rebuilt as
a string-keyed mapping by asserting each key is a string (`k.(string)`) -
`none` models the panic this assertion raises on a non-string key - with
values fixed recursively; a sequence has its elements fixed in place; every
other value is returned unchanged. -/
def fixInterfaceMap : YamlVal → Option YamlVal
  | .gmap kvs =>
      match fixPairs kvs with
      | some kvs' => some (.smap kvs')
      | none => none
  | .seq xs =>
      match fixElems xs with
      | some xs' => some (.seq xs')
      | none => none
  | v => some v

/-- The `range` over a generic mapping inside `fixInterfaceMap`: each key must
be a string or the type assertion panics (`none`); values are fixed recursively. -/
def fixPairs : List (YamlVal × YamlVal) → Option (List (String × YamlVal))
  | [] => some []
  | (k, v) :: rest =>
      match k with
      | .str s =>
          match fixInterfaceMap v, fixPairs rest with
          | some v', some rest' => some ((s, v') :: rest')
          | _, _ => none
      | _ => none

/-- The `range` over a slice inside `fixInterfaceMap`. -/
def fixElems : List YamlVal → Option (List YamlVal)
  | [] => some []
  | v :: rest =>
      match fixInterfaceMap v, fixElems rest with
      | some v', some rest' => some (v' :: rest')
      | _, _ => none

end

/-- A pipeline failure: a returned `goerr` error, or a Go panic (the metadata
split and the yaml key assertion can panic; both are modelled explicitly,
never as a returned error). -/
inductive PErr where
  | goError (e : AppError)
  | panicked

/-- The json decode loop of `readData` (query.go lines 178-188) over the
stream's per-document outcomes: documents accumulate in order until
end-of-stream; a decode failure aborts with `goerr.Wrap(err).With("path", input)`,
carrying the source path. -/
def readLoopJson (path : String) : List (Except String Value) → List Value →
    Except AppError (List Value)
  | [], acc => .ok acc
  | .error e :: _, _ => .error { msg := e, path := some path }
  | .ok v :: rest, acc => readLoopJson path rest (acc ++ [v])

/-- The yaml decode loop of `readData` (query.go lines 190-200): documents are
normalized by `fixInterfaceMap` and accumulate in order; a decode failure
aborts with `goerr.Wrap(err)` - no source path attached. -/
def readLoopYaml : List (Except String YamlVal) → List YamlVal →
    Except PErr (List YamlVal)
  | [], acc => .ok acc
  | .error e :: _, _ => .error (.goError { msg := e })
  | .ok d :: rest, acc =>
      match fixInterfaceMap d with
      | some v => readLoopYaml rest (acc ++ [v])
      | none => .error .panicked

/-- The collapse at the tail of `readData` (query.go lines 203-207): a single
accumulated document is returned directly; otherwise the whole sequence is
(including the empty one). -/
def collapse (results : List Value) : Value :=
  match results with
  | [r] => r
  | _ => .arr results

/-- The collapse for the yaml-typed loop. -/
def collapseY (results : List YamlVal) : YamlVal :=
  match results with
  | [r] => r
  | _ => .seq results

/-- `readData` in format `json` (query.go lines 176-188, 203-207), over the
stream's per-document decode outcomes. -/
def readDataJson (path : String) (docs : List (Except String Value)) :
    Except AppError Value :=
  match readLoopJson path docs [] with
  | .error e => .error e
  | .ok rs => .ok (collapse rs)

/-- `readData` in format `yaml` (query.go lines 190-207). The source path is in
scope but the yaml branch never attaches it to the error. -/
def readDataYaml (path : String) (docs : List (Except String YamlVal)) :
    Except PErr YamlVal :=
  match readLoopYaml docs [] with
  | .error e => .error e
  | .ok rs => .ok (collapseY rs)

/-- `strings.Split(s, sep)` on character lists: the (always non-empty) list of
segments between occurrences of `sep`. -/
def splitAll (sep : Char) : List Char → List (List Char)
  | [] => [[]]
  | c :: rest =>
      if c = sep then [] :: splitAll sep rest
      else
        match splitAll sep rest with
        | g :: gs => (c :: g) :: gs
        | [] => [[c]]

/-- `strings.TrimSpace` on character lists (leading and trailing whitespace). -/
def trimL (cs : List Char) : List Char :=
  ((cs.dropWhile Char.isWhitespace).reverse.dropWhile Char.isWhitespace).reverse

/-- `strings.TrimSpace`. -/
def goTrimSpace (s : String) : String := String.mk (trimL s.toList)

/-- The header transmission step of `query` (query.go lines 134-137):
`h := strings.Split(hdr, ":")`, then the name is `TrimSpace(h[0])` and the
value is `TrimSpace(h[1])` - the segment between the first and second colon.
`none` models the index panic of `h[1]` when the string has no colon. -/
def headerPair (s : String) : Option (String × String) :=
  match splitAll ':' s.toList with
  | h0 :: h1 :: _ => some (goTrimSpace (String.mk h0), goTrimSpace (String.mk h1))
  | _ => none

/-- The header loop of `query` assembling `input.Headers`. -/
def assembleHeaders (headers : List String) : Option (List (String × String)) :=
  headers.mapM headerPair

/-- The network response as `Client.Query` observes it: the HTTP status and the
outcome of reading the body (a read failure carries the partial bytes read). -/
structure HttpResp where
  status : Nat
  bodyRead : Except (String × String) String

/-- The outcomes of the effectful steps inside `Client.Query`, in call order:
serializing the `{"input": ...}` envelope, building the HTTP request,
performing the exchange, decoding the `{"result": ...}` envelope, and the
re-serialize / re-deserialize pair for the caller's target type. -/
structure ClientEffects where
  marshalInput : Except String String
  newRequest : Except String Unit
  httpDo : Except String HttpResp
  unmarshalResp : Except String Value
  marshalResult : Except String String
  unmarshalOut : Except String Value

/-- `Client.Query` (client.go lines 35-84): marshal the request envelope (a
failure is wrapped plainly, carrying the input); build the request (a failure
wraps `ErrInvalidInput`, carrying the input); perform the exchange (a failure
wraps `ErrRequestFailed`); a non-200 status wraps `ErrRequestFailed` with the
status code and best-effort body; then read and decode the response envelope
and re-serialize/deserialize the result, each failure wrapping
`ErrUnexpectedResp`. -/
def clientQuery (input : QueryInput) (fx : ClientEffects) : Except AppError Value :=
  match fx.marshalInput with
  | .error e => .error { msg := e, inputCtx := some input }
  | .ok _ =>
  match fx.newRequest with
  | .error e => .error { kind := some .invalidInput, msg := e, inputCtx := some input }
  | .ok _ =>
  match fx.httpDo with
  | .error e => .error { kind := some .requestFailed, msg := e }
  | .ok resp =>
  if resp.status ≠ 200 then
    .error { kind := some .requestFailed, msg := "status code is not OK",
             code := some resp.status,
             body := some (match resp.bodyRead with
                           | .ok b => b
                           | .error pb => pb.2) }
  else
    match resp.bodyRead with
    | .error pb => .error { kind := some .unexpectedResp, msg := pb.1, body := some pb.2 }
    | .ok raw =>
    match fx.unmarshalResp with
    | .error e => .error { kind := some .unexpectedResp, msg := e, body := some raw }
    | .ok _result =>
    match fx.marshalResult with
    | .error e => .error { kind := some .unexpectedResp, msg := e }
    | .ok _ =>
    match fx.unmarshalOut with
    | .error e => .error { kind := some .unexpectedResp, msg := e, body := some raw }
    | .ok out => .ok out

/-- `Proc.query` (query.go lines 82-159) with the three effectful stages -
input decoding, the network exchange, and writing the result - abstracted by
their outcomes: validate, read, compose the payload (a non-object with
metadata and no data field wraps `ErrInvalidConfiguration`), assemble the
headers, query, write, and only then decide the exit signal. -/
def procQuery (cfg : QueryConfig) (readOutcome : Except AppError Value)
    (queryOutcome : Except AppError Value) (writeOutcome : Except AppError Unit) :
    Except PErr Unit :=
  match cfg.Validate with
  | .error e => .error (.goError e)
  | .ok _ =>
  match readOutcome with
  | .error e => .error (.goError e)
  | .ok inputData =>
  match compose inputData cfg.MetaData cfg.MetaDataField cfg.DataField with
  | .error .panicNoEq => .error .panicked
  | .error .invalidConfig =>
      .error (.goError { kind := some .invalidConfiguration,
                         msg := "metadata can be injected to only object (key-value) type data" })
  | .ok data =>
  match assembleHeaders cfg.Headers with
  | none => .error .panicked
  | some hs =>
  let _input : QueryInput := { url := cfg.URL, data := data, headers := hs }
  match queryOutcome with
  | .error e => .error (.goError e)
  | .ok out =>
  match writeOutcome with
  | .error e => .error (.goError e)
  | .ok _ =>
  match decideExit out cfg.FailDefined cfg.FailUndefined with
  | .error e => .error (.goError e)
  | .ok _ => .ok ()

/-! ### Shared lemmas about the decode loops -/

/-- The json loop on an all-well-formed stream accumulates every document in
stream order. -/
theorem readLoopJson_ok (path : String) (docs : List Value) :
    ∀ acc : List Value, readLoopJson path (docs.map Except.ok) acc = .ok (acc ++ docs) := by
  induction docs with
  | nil => intro acc; simp [readLoopJson]
  | cons d ds ih =>
      intro acc
      simp only [List.map_cons, readLoopJson, ih]
      simp

/-- The json loop aborts at the first malformed document, attaching the source
path. -/
theorem readLoopJson_err (path : String) (pre : List Value) (e : String)
    (rest : List (Except String Value)) :
    ∀ acc : List Value,
      readLoopJson path (pre.map Except.ok ++ .error e :: rest) acc
        = .error { msg := e, path := some path } := by
  induction pre with
  | nil => intro acc; simp [readLoopJson]
  | cons d ds ih => intro acc; simpa [readLoopJson] using ih _

/-- The yaml loop on an all-well-formed stream accumulates every normalized
document in stream order. -/
theorem readLoopYaml_ok (docs : List YamlVal) :
    ∀ (vs acc : List YamlVal), docs.mapM fixInterfaceMap = some vs →
      readLoopYaml (docs.map Except.ok) acc = .ok (acc ++ vs) := by
  induction docs with
  | nil =>
      intro vs acc h
      simp only [List.mapM_nil, Option.pure_def, Option.some.injEq] at h
      subst h
      simp [readLoopYaml]
  | cons d ds ih =>
      intro vs acc h
      rw [List.mapM_cons] at h
      cases hd : fixInterfaceMap d with
      | none => rw [hd] at h; simp at h
      | some v =>
          cases hds : ds.mapM fixInterfaceMap with
          | none => rw [hd, hds] at h; simp at h
          | some ws =>
              rw [hd, hds] at h
              simp only [Option.pure_def, Option.bind_eq_bind, Option.some_bind,
                Option.some.injEq] at h
              subst h
              simp only [List.map_cons, readLoopYaml, hd, ih ws _ hds]
              simp

/-- The yaml loop aborts at the first malformed document without attaching the
source path. -/
theorem readLoopYaml_err (pre : List YamlVal) (e : String)
    (rest : List (Except String YamlVal)) :
    ∀ (vs acc : List YamlVal), pre.mapM fixInterfaceMap = some vs →
      readLoopYaml (pre.map Except.ok ++ .error e :: rest) acc
        = .error (.goError { msg := e }) := by
  induction pre with
  | nil => intro vs acc _; simp [readLoopYaml]
  | cons d ds ih =>
      intro vs acc h
      rw [List.mapM_cons] at h
      cases hd : fixInterfaceMap d with
      | none => rw [hd] at h; simp at h
      | some v =>
          cases hds : ds.mapM fixInterfaceMap with
          | none => rw [hd, hds] at h; simp at h
          | some ws =>
              simpa [readLoopYaml, hd] using ih ws _ hds

/-! ### C2: the collapse rule of the input decoder -/

/-- C2: decoding a stream of well-formed documents yields, for both formats,
the single document itself when there was exactly one, and the ordered
sequence otherwise (the empty sequence for an empty stream); for yaml this
holds given document normalization succeeds on each document. -/
theorem readData_collapse_rule :
    (∀ (path : String) (docs : List Value),
        readDataJson path (docs.map Except.ok)
          = .ok (match docs with | [d] => d | _ => .arr docs)) ∧
    (∀ (path : String) (ydocs vs : List YamlVal),
        ydocs.mapM fixInterfaceMap = some vs →
        readDataYaml path (ydocs.map Except.ok)
          = .ok (match vs with | [d] => d | _ => .seq vs)) := by
  constructor
  · intro path docs
    simp only [readDataJson, readLoopJson_ok path docs [], List.nil_append]
    rfl
  · intro path ydocs vs h
    simp only [readDataYaml, readLoopYaml_ok ydocs vs [] h, List.nil_append]
    rfl

/-- Witness for C2 at concrete streams: a two-document yaml stream (whose
normalization succeeds) collapses to the two-element sequence, and a
single-document stream to the document itself. -/
theorem readData_collapse_rule_witness :
    ([YamlVal.gmap [(.str "color", .str "blue")],
      YamlVal.gmap [(.str "color", .str "orange")]].mapM fixInterfaceMap
        = some [.smap [("color", .str "blue")], .smap [("color", .str "orange")]]) ∧
    readDataYaml "-" [Except.ok (YamlVal.gmap [(.str "color", .str "blue")]),
                      Except.ok (YamlVal.gmap [(.str "color", .str "orange")])]
      = .ok (.seq [.smap [("color", .str "blue")], .smap [("color", .str "orange")]]) ∧
    readDataJson "-" [Except.ok (.obj [("color", .str "blue")])]
      = .ok (.obj [("color", .str "blue")]) := by
  refine ⟨rfl, ?_, ?_⟩
  · exact readData_collapse_rule.2 "-"
      [YamlVal.gmap [(.str "color", .str "blue")], YamlVal.gmap [(.str "color", .str "orange")]]
      [.smap [("color", .str "blue")], .smap [("color", .str "orange")]] rfl
  · exact readData_collapse_rule.1 "-" [.obj [("color", .str "blue")]]

/-! ### C3: emptiness classification and the exit decision -/

/-- C3: a result is empty exactly when it is null (the absence marker or a nil
reference) or a zero-length mapping or sequence - so `false`, `0` and `""` are
non-empty - and the exit decision returns the non-zero signal exactly when
fail-defined is set with a non-empty result or fail-undefined is set with an
empty result, the two flags acting independently, and proceeds otherwise. -/
theorem isEmpty_decideExit_spec :
    ∀ (out : Value) (fd fu : Bool),
      (isEmpty out = true ↔ (out = .null ∨ out = .obj [] ∨ out = .arr [])) ∧
      (decideExit out fd fu = .error errExitWithNonZero ↔
        ((fd = true ∧ isEmpty out = false) ∨ (fu = true ∧ isEmpty out = true))) ∧
      (decideExit out fd fu = .ok () ↔
        ¬((fd = true ∧ isEmpty out = false) ∨ (fu = true ∧ isEmpty out = true))) := by
  intro out fd fu
  refine ⟨?_, ?_, ?_⟩
  · cases out with
    | null => simp [isEmpty]
    | bool b => simp [isEmpty]
    | num n => simp [isEmpty]
    | str s => simp [isEmpty]
    | arr a => cases a <;> simp [isEmpty]
    | obj m => cases m <;> simp [isEmpty]
  · cases fd <;> cases fu <;> cases h : isEmpty out <;> simp [decideExit, h]
  · cases fd <;> cases fu <;> cases h : isEmpty out <;> simp [decideExit, h]

/-! ### C1: the data/metadata composition decision table -/

/-- The spec's characterization of the metadata mapping: the value a key `k`
gets is the value of the last entry whose key part (before the first `=`)
is `k`. -/
def lastMetaValue (entries : List String) (k : String) : Option String :=
  entries.foldl (fun acc e =>
    match splitMeta e with
    | some kv => if kv.1 = k then some kv.2 else acc
    | none => acc) none

/-- Go map assignment then lookup: the assigned key reads back the new value,
every other key is untouched. -/
theorem smapGet_smapSet (m : List (String × String)) (k : String) (v : String) (k' : String) :
    smapGet (smapSet m k v) k' = if k' = k then some v else smapGet m k' := by
  induction m with
  | nil =>
      by_cases h : k' = k
      · subst h; simp [smapSet, smapGet]
      · simp [smapSet, smapGet, h, Ne.symm h]
  | cons kv rest ih =>
      obtain ⟨a, b⟩ := kv
      by_cases ha : a = k
      · subst ha
        by_cases h : k' = a
        · subst h; simp [smapSet, smapGet]
        · simp [smapSet, smapGet, h, Ne.symm h]
      · by_cases hb : a = k'
        · subst hb
          simp [smapSet, smapGet, ha]
        · simp [smapSet, smapGet, ha, hb, ih]

/-- `mapGet`/`mapSet`: the `Value`-typed analogue of `smapGet_smapSet`. -/
theorem mapGet_mapSet (m : List (String × Value)) (k : String) (v : Value) (k' : String) :
    mapGet (mapSet m k v) k' = if k' = k then some v else mapGet m k' := by
  induction m with
  | nil =>
      by_cases h : k' = k
      · subst h; simp [mapSet, mapGet]
      · simp [mapSet, mapGet, h, Ne.symm h]
  | cons kv rest ih =>
      obtain ⟨a, b⟩ := kv
      by_cases ha : a = k
      · subst ha
        by_cases h : k' = a
        · subst h; simp [mapSet, mapGet]
        · simp [mapSet, mapGet, h, Ne.symm h]
      · by_cases hb : a = k'
        · subst hb
          simp [mapSet, mapGet, ha]
        · simp [mapSet, mapGet, ha, hb, ih]

/-- The metadata fold succeeds from any starting map when every entry splits. -/
theorem buildMetaFrom_isSome (entries : List String) :
    ∀ m0 : List (String × String), (∀ e ∈ entries, (splitMeta e).isSome = true) →
      ∃ m, entries.foldlM
          (fun m e => (splitMeta e).map (fun kv => smapSet m kv.1 kv.2)) m0 = some m := by
  induction entries with
  | nil => intro m0 _; exact ⟨m0, rfl⟩
  | cons e es ih =>
      intro m0 h
      cases hse : splitMeta e with
      | none =>
          have := h e (by simp)
          rw [hse] at this
          simp at this
      | some kv =>
          obtain ⟨m, hm⟩ := ih (smapSet m0 kv.1 kv.2) (fun x hx => h x (by simp [hx]))
          refine ⟨m, ?_⟩
          rw [List.foldlM_cons, hse]
          simpa using hm

/-- Lookup in the accumulated metadata map: each entry overwrites its key, so
the lookup result is the last matching entry's value, folded from the lookup
in the starting map. -/
theorem buildMetaFrom_lookup (entries : List String) :
    ∀ (m0 m : List (String × String)),
      entries.foldlM
        (fun m e => (splitMeta e).map (fun kv => smapSet m kv.1 kv.2)) m0 = some m →
      ∀ k, smapGet m k = entries.foldl (fun acc e =>
          match splitMeta e with
          | some kv => if kv.1 = k then some kv.2 else acc
          | none => acc) (smapGet m0 k) := by
  induction entries with
  | nil =>
      intro m0 m h k
      simp only [List.foldlM_nil] at h
      cases h
      simp
  | cons e es ih =>
      intro m0 m h k
      rw [List.foldlM_cons] at h
      cases hse : splitMeta e with
      | none => rw [hse] at h; simp at h
      | some kv =>
          rw [hse] at h
          simp only [Option.map_some, Option.pure_def, Option.bind_eq_bind,
            Option.some_bind] at h
          have := ih (smapSet m0 kv.1 kv.2) m h k
          rw [smapGet_smapSet] at this
          rw [this]
          simp only [List.foldl_cons, hse]
          congr 1
          by_cases hk : kv.1 = k
          · simp [hk]
          · simp [hk, Ne.symm hk]

/-- C1: the composition decision table, exactly: with no data field and no
metadata the decoded value passes through unchanged; with no data field and
metadata present, composition succeeds only on objects (failing with the
invalid-configuration error otherwise) and sets the metadata field in the
decoded object, overwriting an existing key; with a data field the payload is
a fresh `{dataField: decoded}` object, gaining the metadata field exactly when
metadata is present. The metadata mapping maps each key to the value of the
last entry with that key (entries split on their first `=`), and setting a key
overwrites any existing key of that name while leaving all others unchanged. -/
theorem compose_decision_table :
    ∀ (decoded : Value) (entries : List String) (mf df : String),
      (∀ e ∈ entries, (splitMeta e).isSome = true) →
      ((df = "" ∧ entries = []) → compose decoded entries mf df = .ok decoded) ∧
      ((df = "" ∧ entries ≠ []) →
        (∀ root, decoded = .obj root → ∃ m, buildMeta entries = some m ∧
            compose decoded entries mf df = .ok (.obj (mapSet root mf (metaValue m)))) ∧
        (isObj decoded = false → compose decoded entries mf df = .error .invalidConfig)) ∧
      ((df ≠ "" ∧ entries = []) → compose decoded entries mf df = .ok (.obj [(df, decoded)])) ∧
      ((df ≠ "" ∧ entries ≠ []) → ∃ m, buildMeta entries = some m ∧
          compose decoded entries mf df = .ok (.obj (mapSet [(df, decoded)] mf (metaValue m)))) ∧
      (∀ m, buildMeta entries = some m → ∀ k, smapGet m k = lastMetaValue entries k) ∧
      (∀ (root : List (String × Value)) (k : String) (v : Value) (k' : String),
          mapGet (mapSet root k v) k' = if k' = k then some v else mapGet root k') := by
  intro decoded entries mf df hval
  refine ⟨?_, ?_, ?_, ?_, ?_, ?_⟩
  · rintro ⟨rfl, rfl⟩
    simp [compose]
  · rintro ⟨rfl, hne⟩
    obtain ⟨m, hm⟩ := buildMetaFrom_isSome entries [] hval
    have hE : entries.isEmpty = false := by
      cases entries with
      | nil => exact absurd rfl hne
      | cons a l => rfl
    constructor
    · rintro root rfl
      exact ⟨m, hm, by simp [compose, hE, buildMeta, hm]⟩
    · intro hobj
      cases decoded <;> simp [isObj] at hobj ⊢ <;> simp [compose, hE, buildMeta, hm]
  · rintro ⟨hdf, rfl⟩
    simp [compose, hdf]
  · rintro ⟨hdf, hne⟩
    obtain ⟨m, hm⟩ := buildMetaFrom_isSome entries [] hval
    have hE : entries.isEmpty = false := by
      cases entries with
      | nil => exact absurd rfl hne
      | cons a l => rfl
    exact ⟨m, hm, by simp [compose, hE, buildMeta, hm, hdf]⟩
  · intro m hm k
    have := buildMetaFrom_lookup entries [] m hm k
    simpa [lastMetaValue, smapGet] using this
  · exact mapGet_mapSet

/-- Witness for C1 at the spec's own scenario: input `{"user":"blue"}`, one
metadata entry `filename=five.json`, metadata field `metadata`, no data field. -/
theorem compose_decision_table_witness :
    (∀ e ∈ ["filename=five.json"], (splitMeta e).isSome = true) ∧
    compose (.obj [("user", .str "blue")]) ["filename=five.json"] "metadata" ""
      = .ok (.obj [("user", .str "blue"),
                   ("metadata", .obj [("filename", .str "five.json")])]) := by
  refine ⟨by decide, ?_⟩
  obtain ⟨m, hm, hc⟩ :=
    ((compose_decision_table (.obj [("user", .str "blue")]) ["filename=five.json"]
        "metadata" "" (by decide)).2.1 ⟨rfl, by simp⟩).1 [("user", .str "blue")] rfl
  have hm' : m = [("filename", "five.json")] := by
    have : buildMeta ["filename=five.json"] = some [("filename", "five.json")] := rfl
    rw [this] at hm
    exact (Option.some.injEq _ _ ▸ hm).symm
  rw [hc, hm']
  rfl

/-! ### C5: configuration validation against the rules of spec section 4.1 -/

/-- The `Required` check on a header is subsumed by the header rule (the empty
string matches no header pattern). -/
theorem required_headerMatch (h : String) : (h != "" && headerMatch h) = headerMatch h := by
  by_cases he : h = ""
  · subst he; rfl
  · have h1 : (h != "") = true := by simpa using he
    rw [h1, Bool.true_and]

/-- The `Required` check on a metadata entry is subsumed by the metadata rule. -/
theorem required_metaMatch (m : String) : (m != "" && metaMatch m) = metaMatch m := by
  by_cases he : m = ""
  · subst he; rfl
  · have h1 : (m != "") = true := by simpa using he
    rw [h1, Bool.true_and]

/-- The header loop succeeds exactly when every header matches, and otherwise
fails with the one invalid-configuration error naming `--header`. -/
theorem validateHeaders_eq (hs : List String) :
    validateHeaders hs =
      (if hs.all headerMatch then Except.ok ()
       else .error { kind := some .invalidConfiguration, target := some "--header" }) := by
  induction hs with
  | nil => rfl
  | cons h rest ih =>
      simp only [validateHeaders, required_headerMatch, List.all_cons]
      by_cases hm : headerMatch h = true
      · simp only [if_pos hm, hm, Bool.true_and, ih]
        simp
      · have hm' : headerMatch h = false := by simpa using hm
        simp only [if_neg hm, hm', Bool.false_and]
        simp

/-- The metadata loop succeeds exactly when every entry matches, and otherwise
fails with the one invalid-configuration error naming `--metadata`. -/
theorem validateMeta_eq (ms : List String) :
    validateMeta ms =
      (if ms.all metaMatch then Except.ok ()
       else .error { kind := some .invalidConfiguration, target := some "--metadata" }) := by
  induction ms with
  | nil => rfl
  | cons m rest ih =>
      simp only [validateMeta, required_metaMatch, List.all_cons]
      by_cases hm : metaMatch m = true
      · simp only [if_pos hm, hm, Bool.true_and, ih]
        simp
      · have hm' : metaMatch m = false := by simpa using hm
        simp only [if_neg hm, hm', Bool.false_and]
        simp

/-- C5: `Validate` accepts a configuration exactly when every rule of spec
section 4.1 holds - URL present and absolute, format exactly `json` or `yaml`,
every header and metadata entry well-formed, and a metadata field name present
whenever metadata entries are - and every rejection carries the
invalid-configuration kind. -/
theorem validate_rules :
    ∀ cfg : QueryConfig,
      (cfg.Validate = .ok () ↔ specConfigOk cfg = true) ∧
      (∀ e : AppError, cfg.Validate = .error e → e.kind = some .invalidConfiguration) := by
  intro cfg
  have hHs := validateHeaders_eq cfg.Headers
  have hMs := validateMeta_eq cfg.MetaData
  have orT : ∀ a b : Bool, (a || b) = true → a = true ∨ b = true := by decide
  have orF : ∀ a b : Bool, (a || b) = false → a = false ∧ b = false := by decide
  have notT : ∀ a : Bool, (!a) = true → a = false := by decide
  have notF : ∀ a : Bool, (!a) = false → a = true := by decide
  constructor
  · simp only [QueryConfig.Validate, hHs, hMs, specConfigOk, bne]
    by_cases hu : (cfg.URL == "" || !isAbsURL cfg.URL) = true
    · rw [if_pos hu]
      have hAB : (!(cfg.URL == "") && isAbsURL cfg.URL) = false := by
        rcases orT _ _ hu with h | h
        · simp [h]
        · simp [notT _ h]
      simp [hAB]
    · have hu0 : (cfg.URL == "" || !isAbsURL cfg.URL) = false := by simpa using hu
      rw [if_neg hu]
      have hA : (cfg.URL == "") = false := (orF _ _ hu0).1
      have hB : isAbsURL cfg.URL = true := notF _ (orF _ _ hu0).2
      by_cases hf : (cfg.Format == "" || !(cfg.Format == "json" || cfg.Format == "yaml")) = true
      · rw [if_pos hf]
        have hky : (cfg.Format == "json" || cfg.Format == "yaml") = false := by
          rcases orT _ _ hf with h | h
          · have he : cfg.Format = "" := by simpa using h
            rw [he]
            decide
          · exact notT _ h
        simp [hky, hA, hB]
      · have hf0 : (cfg.Format == "" || !(cfg.Format == "json" || cfg.Format == "yaml")) = false := by
          simpa using hf
        rw [if_neg hf]
        have hky : (cfg.Format == "json" || cfg.Format == "yaml") = true := notF _ (orF _ _ hf0).2
        by_cases hall : cfg.Headers.all headerMatch = true
        · rw [if_pos hall]
          by_cases hmd : cfg.MetaData.isEmpty = true
          · simp [hmd, hA, hB, hky, hall]
          · have hmd0 : cfg.MetaData.isEmpty = false := by simpa using hmd
            by_cases hmf : (cfg.MetaDataField == "") = true
            · simp [hmd0, hmf, hA, hB, hky, hall]
            · have hmf0 : (cfg.MetaDataField == "") = false := by simpa using hmf
              by_cases hmall : cfg.MetaData.all metaMatch = true
              · simp [hmd0, hmf0, hmall, hA, hB, hky, hall]
              · have hmall0 : cfg.MetaData.all metaMatch = false := by simpa using hmall
                simp [hmd0, hmf0, hmall0, hA, hB, hky, hall]
        · have hall0 : cfg.Headers.all headerMatch = false := by simpa using hall
          simp [hall0, hA, hB, hky]
  · intro e h
    simp only [QueryConfig.Validate] at h
    by_cases hu : (cfg.URL == "" || !isAbsURL cfg.URL) = true
    · simp only [if_pos hu] at h
      injection h with h2
      subst h2
      rfl
    · simp only [if_neg hu] at h
      by_cases hf : (cfg.Format == "" || !(cfg.Format == "json" || cfg.Format == "yaml")) = true
      · simp only [if_pos hf] at h
        injection h with h2
        subst h2
        rfl
      · simp only [if_neg hf] at h
        cases hH2 : validateHeaders cfg.Headers with
        | error e2 =>
            simp only [hH2] at h
            injection h with h2
            subst h2
            rw [validateHeaders_eq] at hH2
            by_cases hall : cfg.Headers.all headerMatch = true
            · simp only [if_pos hall] at hH2
              exact Except.noConfusion hH2
            · simp only [if_neg hall] at hH2
              injection hH2 with h3
              subst h3
              rfl
        | ok u =>
            simp only [hH2] at h
            by_cases hmd : cfg.MetaData.isEmpty = true
            · simp only [if_pos hmd] at h
              exact Except.noConfusion h
            · simp only [if_neg hmd] at h
              by_cases hmf : (cfg.MetaDataField == "") = true
              · simp only [if_pos hmf] at h
                injection h with h2
                subst h2
                rfl
              · simp only [if_neg hmf] at h
                rw [validateMeta_eq] at h
                by_cases hmall : cfg.MetaData.all metaMatch = true
                · simp only [if_pos hmall] at h
                  exact Except.noConfusion h
                · simp only [if_neg hmall] at h
                  injection h with h2
                  subst h2
                  rfl

/-- Witness for C5: a well-formed configuration is accepted (via the rules),
and the rejection of a configuration with an empty URL carries the
invalid-configuration kind. -/
theorem validate_rules_witness :
    specConfigOk { URL := "https://opa.example.com/v1/data/x" } = true ∧
    ({ URL := "https://opa.example.com/v1/data/x" } : QueryConfig).Validate = .ok () ∧
    ({ URL := "" } : QueryConfig).Validate
        = .error { kind := some .invalidConfiguration, target := some "--url" } ∧
    ({ kind := some .invalidConfiguration, target := some "--url" } : AppError).kind
        = some .invalidConfiguration := by
  refine ⟨by decide, ?_, rfl, ?_⟩
  · exact (validate_rules { URL := "https://opa.example.com/v1/data/x" }).1.mpr (by decide)
  · exact (validate_rules { URL := "" }).2
      { kind := some .invalidConfiguration, target := some "--url" } rfl

/-! ### C4: yaml key normalization (the non-string-key panic) -/

/-- C4, the code at the claim's failing input: on the yaml document `1: one` -
a generic mapping with the integer key `1` - `fixInterfaceMap` panics (the
`k.(string)` assertion), instead of coercing the key to the string `"1"`;
on an all-string-keyed mapping it produces the string-keyed mapping the claim
describes, recursively. -/
theorem fixInterfaceMap_intKey_panics :
    fixInterfaceMap (.gmap [(.num 1, .str "one")]) = none ∧
    fixInterfaceMap (.gmap [(.str "color", .str "blue"),
                            (.str "nested", .gmap [(.str "k", .num 5)])])
      = some (.smap [("color", .str "blue"), ("nested", .smap [("k", .num 5)])]) :=
  ⟨rfl, rfl⟩

/-! ### C6: header name/value transmission -/

/-- `splitFirst` decomposes its input at the first occurrence of the
separator. -/
theorem splitFirst_eq_some (c : Char) :
    ∀ (cs b a : List Char), splitFirst c cs = some (b, a) →
      cs = b ++ c :: a ∧ c ∉ b := by
  intro cs
  induction cs with
  | nil => intro b a h; simp [splitFirst] at h
  | cons x rest ih =>
      intro b a h
      by_cases hx : x = c
      · subst hx
        simp [splitFirst] at h
        obtain ⟨rfl, rfl⟩ := h
        simp
      · simp only [splitFirst, if_neg hx] at h
        cases hs : splitFirst c rest with
        | none => rw [hs] at h; simp at h
        | some p =>
            obtain ⟨b', a'⟩ := p
            rw [hs] at h
            simp only [Option.some.injEq, Prod.mk.injEq] at h
            obtain ⟨rfl, rfl⟩ := h
            obtain ⟨hdec, hnot⟩ := ih b' a' hs
            subst hdec
            exact ⟨rfl, by simp [hnot, Ne.symm hx]⟩

/-- `strings.Split` on a list whose head segment is separator-free: the first
segment is exactly that prefix. -/
theorem splitAll_prefix (sep : Char) :
    ∀ (tok rest : List Char), sep ∉ tok →
      splitAll sep (tok ++ sep :: rest) = tok :: splitAll sep rest := by
  intro tok
  induction tok with
  | nil => intro rest _; simp [splitAll]
  | cons x xs ih =>
      intro rest hnot
      have hx : ¬x = sep := by
        intro hh
        exact hnot (by simp [hh])
      have hxs : sep ∉ xs := fun hh => hnot (by simp [hh])
      simp only [List.cons_append, splitAll, if_neg hx, List.append_eq]
      rw [ih rest hxs]

/-- The head segment of `strings.Split` is the run before the first separator. -/
theorem splitAll_head (sep : Char) :
    ∀ cs : List Char, ∃ gs, splitAll sep cs = cs.takeWhile (· != sep) :: gs := by
  intro cs
  induction cs with
  | nil => exact ⟨[], rfl⟩
  | cons x xs ih =>
      by_cases hx : x = sep
      · refine ⟨splitAll sep xs, ?_⟩
        simp [splitAll, hx, List.takeWhile_cons]
      · obtain ⟨gs, hgs⟩ := ih
        refine ⟨gs, ?_⟩
        have hx' : (x != sep) = true := by simpa using hx
        simp [splitAll, hx, hgs, List.takeWhile_cons, hx']

/-- C6 counterexample: the header `"X-Token: a:b"` passes validation, but the
transmitted value is the trimmed segment between the first and second colon
(`"a"`), not the trimmed remainder after the first colon (`"a:b"`). -/
theorem headerPair_colon_counterexample :
    headerMatch "X-Token: a:b" = true ∧
    headerPair "X-Token: a:b" = some ("X-Token", "a") ∧
    ("a" : String) ≠ "a:b" := ⟨by decide, rfl, by decide⟩

/-- C6 amended: every validated header splits as `token ':' remainder` with a
colon-free token, and the transmitted pair is the trimmed token together with
the trimmed part of the remainder before any further colon - which is the
whole trimmed remainder exactly when the remainder contains no colon. -/
theorem headerPair_amended :
    ∀ s : String, headerMatch s = true →
      ∃ tok rest : List Char,
        s.toList = tok ++ ':' :: rest ∧ ':' ∉ tok ∧
        headerPair s = some (goTrimSpace (String.mk tok),
                             goTrimSpace (String.mk (rest.takeWhile (· != ':')))) ∧
        (':' ∉ rest → rest.takeWhile (· != ':') = rest) := by
  intro s hm
  rw [headerMatch] at hm
  cases hs : splitFirst ':' s.toList with
  | none => rw [hs] at hm; simp at hm
  | some p =>
      obtain ⟨tok, rest⟩ := p
      obtain ⟨hdec, hnot⟩ := splitFirst_eq_some ':' s.toList tok rest hs
      refine ⟨tok, rest, hdec, hnot, ?_, ?_⟩
      · rw [headerPair, hdec, splitAll_prefix ':' tok rest hnot]
        obtain ⟨gs, hgs⟩ := splitAll_head ':' rest
        rw [hgs]
      · intro hrest
        rw [List.takeWhile_eq_self_iff]
        intro c hc
        simp only [bne_iff_ne, ne_eq]
        intro hh
        exact hrest (hh ▸ hc)

/-- Witness for C6 (amended) at the counterexample's own header. -/
theorem headerPair_amended_witness :
    headerMatch "X-Token: a:b" = true ∧
    ∃ tok rest : List Char,
      ("X-Token: a:b" : String).toList = tok ++ ':' :: rest ∧ ':' ∉ tok ∧
      headerPair "X-Token: a:b" = some (goTrimSpace (String.mk tok),
                           goTrimSpace (String.mk (rest.takeWhile (· != ':')))) ∧
      (':' ∉ rest → rest.takeWhile (· != ':') = rest) :=
  ⟨by decide, headerPair_amended "X-Token: a:b" (by decide)⟩

/-! ### C7: the error kind of a failed envelope serialization -/

/-- C7 counterexample: when serializing the `{"input": payload}` envelope
fails, `Client.Query` returns a plain wrapped error that carries the offending
input but does not wrap `ErrInvalidInput` (its kind is `none`). -/
theorem clientQuery_marshal_counterexample :
    clientQuery ⟨"http://opa.example.com", .null, []⟩
        { marshalInput := .error "json: unsupported value",
          newRequest := .ok (), httpDo := .error "",
          unmarshalResp := .error "", marshalResult := .error "",
          unmarshalOut := .error "" }
      = .error { msg := "json: unsupported value",
                 inputCtx := some ⟨"http://opa.example.com", .null, []⟩ } ∧
    (none : Option ErrKind) ≠ some .invalidInput := ⟨rfl, by decide⟩

/-- C7 amended: a failed envelope serialization yields a plain wrapped error
(kind `none`) carrying the offending input; the `ErrInvalidInput` kind is
attached to a failure of HTTP request construction instead, also carrying the
input. -/
theorem clientQuery_marshal_amended :
    ∀ (input : QueryInput) (fx : ClientEffects) (e : String),
      (fx.marshalInput = .error e →
        clientQuery input fx = .error { msg := e, inputCtx := some input }) ∧
      (∀ b : String, fx.marshalInput = .ok b → fx.newRequest = .error e →
        clientQuery input fx
          = .error { kind := some .invalidInput, msg := e, inputCtx := some input }) := by
  intro input fx e
  constructor
  · intro h
    rw [clientQuery, h]
  · intro b hb h
    rw [clientQuery, hb, h]

/-- Witness for C7 (amended) at concrete effect outcomes. -/
theorem clientQuery_marshal_amended_witness :
    clientQuery ⟨"http://opa.example.com", .null, []⟩
        { marshalInput := .ok "\x7b\x22input\x22: null\x7d",
          newRequest := .error "net/http: nil Context",
          httpDo := .error "", unmarshalResp := .error "",
          marshalResult := .error "", unmarshalOut := .error "" }
      = .error { kind := some .invalidInput, msg := "net/http: nil Context",
                 inputCtx := some ⟨"http://opa.example.com", .null, []⟩ } :=
  (clientQuery_marshal_amended ⟨"http://opa.example.com", .null, []⟩ _
      "net/http: nil Context").2 _ rfl rfl

/-! ### C8: decode failure policy of the two formats -/

/-- C8 counterexample: a yaml stream with a malformed second document fails
with a decode error that does not carry the source path (its `path` context is
`none`), although the json branch attaches `some path` in the same situation. -/
theorem readDataYaml_no_path_counterexample :
    readDataYaml "input.yaml" [.ok (.smap [("color", .str "blue")]), .error "yaml: parse error"]
      = .error (.goError { msg := "yaml: parse error" }) ∧
    ({ msg := "yaml: parse error" } : AppError).path = none ∧
    (none : Option String) ≠ some "input.yaml" := ⟨rfl, rfl, by decide⟩

/-- C8 amended: in both formats a malformed document before end-of-stream
aborts decoding with a wrapped decode error; the json branch attaches the
source path to the error, the yaml branch does not. -/
theorem readData_decode_failure :
    ∀ (path : String) (e : String),
      (∀ (pre : List Value) (rest : List (Except String Value)),
        readDataJson path (pre.map Except.ok ++ .error e :: rest)
          = .error { msg := e, path := some path }) ∧
      (∀ (ypre : List YamlVal) (vs : List YamlVal) (rest : List (Except String YamlVal)),
        ypre.mapM fixInterfaceMap = some vs →
        readDataYaml path (ypre.map Except.ok ++ .error e :: rest)
          = .error (.goError { msg := e })) := by
  intro path e
  constructor
  · intro pre rest
    rw [readDataJson, readLoopJson_err path pre e rest []]
  · intro ypre vs rest h
    rw [readDataYaml, readLoopYaml_err ypre e rest vs [] h]

/-- Witness for C8 (amended) at a concrete two-document stream per format. -/
theorem readData_decode_failure_witness :
    readDataJson "in.json" [Except.ok (.obj [("a", .num 1)]), .error "invalid character"]
      = .error { msg := "invalid character", path := some "in.json" } ∧
    readDataYaml "in.yaml" [Except.ok (.smap [("a", .num 1)]), .error "yaml: parse error"]
      = .error (.goError { msg := "yaml: parse error" }) := by
  constructor
  · exact (readData_decode_failure "in.json" "invalid character").1 [.obj [("a", .num 1)]] []
  · exact (readData_decode_failure "in.yaml" "yaml: parse error").2
      [.smap [("a", .num 1)]] [.smap [("a", .num 1)]] [] rfl

/-! ### C10: a write failure preempts the exit decision -/

/-- C10: when the pipeline reaches a successful query but writing the result
fails, `query` returns that write error - whatever the exit flags and the
result's emptiness - and never the `ErrExitWithNonZero` sentinel (which is a
distinct error value from any write error). -/
theorem writeFailure_preempts_exit :
    ∀ (cfg : QueryConfig) (d data out : Value) (hs : List (String × String)) (e : AppError),
      cfg.Validate = .ok () →
      compose d cfg.MetaData cfg.MetaDataField cfg.DataField = .ok data →
      assembleHeaders cfg.Headers = some hs →
      procQuery cfg (.ok d) (.ok out) (.error e) = .error (.goError e) ∧
      (e ≠ errExitWithNonZero →
        procQuery cfg (.ok d) (.ok out) (.error e) ≠ .error (.goError errExitWithNonZero)) := by
  intro cfg d data out hs e hv hc hh
  have hmain : procQuery cfg (.ok d) (.ok out) (.error e) = .error (.goError e) := by
    rw [procQuery, hv, hc, hh]
  refine ⟨hmain, ?_⟩
  intro hne hcontr
  rw [hmain] at hcontr
  injection hcontr with h1
  injection h1 with h2
  exact hne h2

/-- Witness for C10: a valid configuration with `--fail-defined` set and a
non-empty result, where writing fails with an IO error: the pipeline returns
the IO error, not the exit sentinel. -/
theorem writeFailure_preempts_exit_witness :
    ({ URL := "https://opa.example.com/v1/data/x", FailDefined := true } : QueryConfig).Validate
        = .ok () ∧
    compose (.obj [("user", .str "blue")]) [] "metadata" "" = .ok (.obj [("user", .str "blue")]) ∧
    assembleHeaders [] = some [] ∧
    procQuery { URL := "https://opa.example.com/v1/data/x", FailDefined := true }
        (.ok (.obj [("user", .str "blue")])) (.ok (.obj [("allow", .bool true)]))
        (.error { msg := "no space left on device", path := some "out.json" })
      = .error (.goError { msg := "no space left on device", path := some "out.json" }) := by
  refine ⟨rfl, rfl, rfl, ?_⟩
  exact (writeFailure_preempts_exit
      { URL := "https://opa.example.com/v1/data/x", FailDefined := true }
      (.obj [("user", .str "blue")]) (.obj [("user", .str "blue")])
      (.obj [("allow", .bool true)]) []
      { msg := "no space left on device", path := some "out.json" } rfl rfl rfl).1

/-! ### C9: the json output encoder and input decoder

The encoder models `writeData` (query.go lines 226-247): `json.Encoder` with
`SetIndent("", "  ")` - pretty-printed, two-space indentation, default HTML
escaping, a trailing newline. The decoder models the `json.Decoder` loop of
`readData`: consecutive top-level JSON documents separated by whitespace.
Both byte-level codecs are `encoding/json` standard-library behaviour, not
code of this repository; they are modelled from the spec's file-format and
encoder descriptions, with numbers as integers (the model's `Value.num`). -/

/-- The opening brace character. -/
def lbrace : Char := Char.ofNat 123

/-- The closing brace character. -/
def rbrace : Char := Char.ofNat 125

/-- A decimal digit character. -/
def digitChar (n : Nat) : Char := Char.ofNat ('0'.toNat + n)

/-- A lowercase hexadecimal digit character. -/
def hexChar (n : Nat) : Char :=
  if n < 10 then Char.ofNat ('0'.toNat + n) else Char.ofNat ('a'.toNat + (n - 10))

/-- Decimal digits of `n`, most significant first, in front of `acc`. -/
def natChars (n : Nat) (acc : List Char) : List Char :=
  if n < 10 then digitChar (n % 10) :: acc
  else natChars (n / 10) (digitChar (n % 10) :: acc)
termination_by n
decreasing_by omega

/-- The characters of an integer: optional minus sign, then decimal digits
(how `encoding/json` prints an integral number). -/
def intChars (i : Int) : List Char :=
  if i < 0 then '-' :: natChars i.natAbs [] else natChars i.natAbs []

/-- The `\uXXXX` escape for a code point below `0x10000`. -/
def uEscape (n : Nat) : List Char :=
  ['\\', 'u', hexChar (n / 4096 % 16), hexChar (n / 256 % 16),
              hexChar (n / 16 % 16), hexChar (n % 16)]

/-- Modelled from the spec: one string character as the `encoding/json`
encoder emits it (default HTML escaping): quote and backslash get a
backslash escape, newline / carriage return / tab their short escapes, other
control characters, the HTML-sensitive `<`, `>`, `&`, and U+2028/U+2029 a
`\uXXXX` escape, and every other character stands for itself. -/
def escChar (c : Char) : List Char :=
  if c = '"' then ['\\', '"']
  else if c = '\\' then ['\\', '\\']
  else if c = '\n' then ['\\', 'n']
  else if c = '\r' then ['\\', 'r']
  else if c = '\t' then ['\\', 't']
  else if c.toNat < 32 ∨ c = '<' ∨ c = '>' ∨ c = '&'
          ∨ c.toNat = 8232 ∨ c.toNat = 8233 then uEscape c.toNat
  else [c]

/-- The escaped form of a character sequence. -/
def escList : List Char → List Char
  | [] => []
  | c :: rest => escChar c ++ escList rest

/-- A JSON string literal: quote, escaped characters, quote. -/
def strChars (s : String) : List Char :=
  '"' :: (escList s.toList ++ ['"'])

/-- The two-space indentation prefix of nesting depth `d`. -/
def indentChars (d : Nat) : List Char := List.replicate (2 * d) ' '

mutual

/-- Modelled from the spec: the pretty-printed rendering of a value at nesting
depth `d`, as `json.Encoder` with `SetIndent("", "  ")` lays it out: scalars
inline; a non-empty array/object opens its bracket, puts each item on its own
line at depth `d + 1`, and closes the bracket on a line at depth `d`. -/
def renderV : Value → Nat → List Char
  | .null, _ => ['n', 'u', 'l', 'l']
  | .bool true, _ => ['t', 'r', 'u', 'e']
  | .bool false, _ => ['f', 'a', 'l', 's', 'e']
  | .num i, _ => intChars i
  | .str s, _ => strChars s
  | .arr [], _ => ['[', ']']
  | .arr (e :: es), d =>
      '[' :: '\n' :: (indentChars (d + 1) ++ (renderItems e es d
        ++ '\n' :: (indentChars d ++ [']'])))
  | .obj [], _ => [lbrace, rbrace]
  | .obj (f :: fs), d =>
      lbrace :: '\n' :: (indentChars (d + 1) ++ (renderFields f fs d
        ++ '\n' :: (indentChars d ++ [rbrace])))
termination_by v _ => sizeOf v

/-- The rendered elements of a non-empty array: the head at depth `d + 1`,
then the separated tail. -/
def renderItems : Value → List Value → Nat → List Char
  | e, [], d => renderV e (d + 1)
  | e, x :: xs, d =>
      renderV e (d + 1) ++ ',' :: '\n' :: (indentChars (d + 1) ++ renderItems x xs d)
termination_by e es _ => sizeOf e + sizeOf es

/-- The rendered members of a non-empty object: `"key": value` lines joined by
comma, newline and indentation. -/
def renderFields : String × Value → List (String × Value) → Nat → List Char
  | (k, v), [], d => strChars k ++ ':' :: ' ' :: renderV v (d + 1)
  | (k, v), f :: fs, d =>
      strChars k ++ ':' :: ' ' :: renderV v (d + 1)
        ++ ',' :: '\n' :: (indentChars (d + 1) ++ renderFields f fs d)
termination_by f fs _ => sizeOf f + sizeOf fs

end

/-- `writeData`'s encoding of the result (query.go lines 241-243): the
pretty-printed value followed by the encoder's trailing newline. -/
def writeJson (v : Value) : String := String.mk (renderV v 0 ++ ['\n'])

/-- JSON inter-token whitespace. -/
def jsonWs (c : Char) : Bool := c = ' ' || c = '\t' || c = '\n' || c = '\r'

/-- Skip leading whitespace. -/
def dropWs : List Char → List Char
  | c :: cs => if jsonWs c then dropWs cs else c :: cs
  | [] => []

/-- A decimal digit. -/
def isDigitCh (c : Char) : Bool := '0' ≤ c && c ≤ '9'

/-- The value of a hexadecimal digit character. -/
def hexDigitVal (c : Char) : Option Nat :=
  if c.isDigit then some (c.toNat - 48)
  else if 'a' ≤ c ∧ c ≤ 'f' then some (c.toNat - 97 + 10)
  else if 'A' ≤ c ∧ c ≤ 'F' then some (c.toNat - 65 + 10)
  else none

/-- Four hexadecimal digits as a code point. -/
def hex4val (a b c d : Char) : Option Nat :=
  match hexDigitVal a, hexDigitVal b, hexDigitVal c, hexDigitVal d with
  | some x, some y, some z, some w => some (((x * 16 + y) * 16 + z) * 16 + w)
  | _, _, _, _ => none

/-- A single-character string escape. -/
def simpleEsc (e : Char) : Option Char :=
  if e = 'n' then some '\n'
  else if e = 't' then some '\t'
  else if e = 'r' then some '\r'
  else if e = '"' ∨ e = '\\' ∨ e = '/' then some e
  else if e = 'b' then some (Char.ofNat 8)
  else if e = 'f' then some (Char.ofNat 12)
  else none

/-- Modelled from the spec: the body of a JSON string literal after the
opening quote - plain characters, backslash escapes and `\uXXXX` escapes -
up to the closing quote. -/
def parseStrBody (acc : List Char) : List Char → Option (String × List Char)
  | '"' :: rest => some (String.mk acc.reverse, rest)
  | '\\' :: 'u' :: a :: b :: c :: d :: rest =>
      match hex4val a b c d with
      | some n => parseStrBody (Char.ofNat n :: acc) rest
      | none => none
  | '\\' :: e :: rest =>
      match simpleEsc e with
      | some ch => parseStrBody (ch :: acc) rest
      | none => none
  | c :: rest => parseStrBody (c :: acc) rest
  | [] => none

/-- The longest digit run at the head of the input, and the remainder. -/
def takeDigitRun : List Char → List Char × List Char
  | c :: cs =>
      if isDigitCh c then
        let p := takeDigitRun cs
        (c :: p.1, p.2)
      else ([], c :: cs)
  | [] => ([], [])

/-- The numeric value of a digit run. -/
def digitsVal (ds : List Char) : Nat :=
  ds.foldl (fun a c => a * 10 + (c.toNat - '0'.toNat)) 0

/-- Modelled from the spec: an integer JSON number - optional minus sign and a
non-empty digit run (the model's numbers are integers). -/
def parseIntNum (cs : List Char) : Option (Int × List Char) :=
  match cs with
  | '-' :: rest =>
      match takeDigitRun rest with
      | (ds, r) => if ds.isEmpty then none else some (-(digitsVal ds : Int), r)
  | _ =>
      match takeDigitRun cs with
      | (ds, r) => if ds.isEmpty then none else some ((digitsVal ds : Int), r)

mutual

/-- Modelled from the spec: one JSON value at the (whitespace-skipped) head of
the input, with `fuel` bounding the recursion; returns the value and the
unconsumed remainder. -/
def parseV : Nat → List Char → Option (Value × List Char)
  | 0, _ => none
  | fuel + 1, cs =>
      match dropWs cs with
      | 'n' :: 'u' :: 'l' :: 'l' :: r => some (.null, r)
      | 't' :: 'r' :: 'u' :: 'e' :: r => some (.bool true, r)
      | 'f' :: 'a' :: 'l' :: 's' :: 'e' :: r => some (.bool false, r)
      | '"' :: r =>
          match parseStrBody [] r with
          | some (s, r') => some (.str s, r')
          | none => none
      | '[' :: r =>
          match dropWs r with
          | [] => none
          | c :: r' =>
              if c = ']' then some (.arr [], r')
              else
                match parseItems fuel (c :: r') with
                | some (es, r'') => some (.arr es, r'')
                | none => none
      | c :: r =>
          if c = lbrace then
            match dropWs r with
            | [] => none
            | c2 :: r' =>
                if c2 = rbrace then some (.obj [], r')
                else
                  match parseFields fuel (c2 :: r') with
                  | some (fs, r'') => some (.obj fs, r'')
                  | none => none
          else if c = '-' || isDigitCh c then
            match parseIntNum (c :: r) with
            | some (i, r') => some (.num i, r')
            | none => none
          else none
      | [] => none

/-- One or more comma-separated array elements up to the closing bracket. -/
def parseItems : Nat → List Char → Option (List Value × List Char)
  | 0, _ => none
  | fuel + 1, cs =>
      match parseV fuel cs with
      | none => none
      | some (v, r) =>
          match dropWs r with
          | ',' :: r' =>
              match parseItems fuel r' with
              | some (vs, r'') => some (v :: vs, r'')
              | none => none
          | ']' :: r' => some ([v], r')
          | _ => none

/-- One or more comma-separated object members up to the closing brace. -/
def parseFields : Nat → List Char → Option (List (String × Value) × List Char)
  | 0, _ => none
  | fuel + 1, cs =>
      match dropWs cs with
      | '"' :: r =>
          match parseStrBody [] r with
          | none => none
          | some (k, r1) =>
              match dropWs r1 with
              | ':' :: r2 =>
                  match parseV fuel r2 with
                  | none => none
                  | some (v, r3) =>
                      match dropWs r3 with
                      | ',' :: r4 =>
                          match parseFields fuel r4 with
                          | some (fs, r5) => some ((k, v) :: fs, r5)
                          | none => none
                      | c4 :: r4 =>
                          if c4 = rbrace then some ([(k, v)], r4) else none
                      | [] => none
              | _ => none
      | _ => none

end

/-- The `json.Decoder` loop of `readData` at byte level: decode consecutive
documents until only whitespace remains (end-of-stream), accumulating them in
order; `none` is a decode failure (or fuel exhaustion, excluded in use). -/
def decodeDocsLoop : Nat → List Char → List Value → Option (List Value)
  | 0, _, _ => none
  | fuel + 1, cs, acc =>
      if (dropWs cs).isEmpty then some acc
      else
        match parseV (fuel + 1) cs with
        | some (v, r) => decodeDocsLoop fuel r (acc ++ [v])
        | none => none

/-- The decoded document list of a json input stream. -/
def decodeJsonDocs (s : String) : Option (List Value) :=
  decodeDocsLoop (s.toList.length + 2) s.toList []

/-- `readData` in format `json` at byte level: decode the stream's documents
and apply the collapse rule; a decode failure carries the source path. -/
def readInputJson (path : String) (s : String) : Except AppError Value :=
  match decodeJsonDocs s with
  | some rs => .ok (collapse rs)
  | none => .error { msg := "json decode error", path := some path }

mutual

/-- Fuel cost of parsing a rendered value: one unit per parser call. -/
def vcost : Value → Nat
  | .arr es => 1 + icost es
  | .obj fs => 1 + fcost fs
  | _ => 1

/-- Fuel cost of an array's element list. -/
def icost : List Value → Nat
  | [] => 0
  | v :: vs => 1 + vcost v + icost vs

/-- Fuel cost of an object's member list. -/
def fcost : List (String × Value) → Nat
  | [] => 0
  | f :: fs => 1 + vcost f.2 + fcost fs

end

/-! #### Number codec lemmas -/

theorem digitChar_toNat : ∀ k : Nat, k < 10 →
    (digitChar k).toNat = '0'.toNat + k ∧ isDigitCh (digitChar k) = true := by decide

theorem natChars_shift (n : Nat) : ∀ acc : List Char, natChars n acc = natChars n [] ++ acc := by
  induction n using Nat.strongRecOn with
  | _ n ih =>
    intro acc
    by_cases h : n < 10
    · conv_lhs => rw [natChars]
      conv_rhs => rw [natChars]
      simp [h]
    · conv_lhs => rw [natChars]
      conv_rhs => rw [natChars]
      simp only [if_neg h]
      rw [ih (n / 10) (by omega), ih (n / 10) (by omega) [digitChar (n % 10)]]
      simp

theorem natChars_split (n : Nat) :
    natChars n [] = (if n < 10 then [] else natChars (n / 10) []) ++ [digitChar (n % 10)] := by
  by_cases h : n < 10
  · rw [natChars]
    simp [h]
  · conv_lhs => rw [natChars]
    simp only [if_neg h]
    exact natChars_shift (n / 10) [digitChar (n % 10)]

theorem natChars_ne_nil (n : Nat) : natChars n [] ≠ [] := by
  rw [natChars_split]
  simp

theorem natChars_all_digits (n : Nat) : ∀ c ∈ natChars n [], isDigitCh c = true := by
  induction n using Nat.strongRecOn with
  | _ n ih =>
    rw [natChars_split]
    intro c hc
    rw [List.mem_append] at hc
    rcases hc with hc | hc
    · by_cases h : n < 10
      · simp [h] at hc
      · exact ih (n / 10) (by omega) c (by simpa [h] using hc)
    · rw [List.mem_singleton] at hc
      subst hc
      exact (digitChar_toNat (n % 10) (Nat.mod_lt _ (by omega))).2

theorem digitsVal_natChars (n : Nat) : digitsVal (natChars n []) = n := by
  induction n using Nat.strongRecOn with
  | _ n ih =>
    rw [natChars_split]
    by_cases h : n < 10
    · simp only [if_pos h, List.nil_append, digitsVal, List.foldl_cons, List.foldl_nil]
      rw [(digitChar_toNat (n % 10) (Nat.mod_lt _ (by omega))).1]
      omega
    · simp only [if_neg h, digitsVal, List.foldl_append, List.foldl_cons, List.foldl_nil]
      have hrec := ih (n / 10) (by omega)
      rw [digitsVal] at hrec
      rw [hrec, (digitChar_toNat (n % 10) (Nat.mod_lt _ (by omega))).1]
      omega

/-- The remainder after a rendered number cannot extend it: empty or headed by
a non-digit. -/
def stopsNum : List Char → Bool
  | [] => true
  | c :: _ => !isDigitCh c

theorem takeDigitRun_stop (cs : List Char) (h : stopsNum cs = true) :
    takeDigitRun cs = ([], cs) := by
  match cs with
  | [] => rfl
  | c :: t =>
      simp only [stopsNum, Bool.not_eq_true'] at h
      simp [takeDigitRun, h]

theorem takeDigitRun_all (ds : List Char) (hds : ∀ c ∈ ds, isDigitCh c = true)
    (rest : List Char) (hrest : takeDigitRun rest = ([], rest)) :
    takeDigitRun (ds ++ rest) = (ds, rest) := by
  induction ds with
  | nil => simpa using hrest
  | cons c t ih =>
      have hc : isDigitCh c = true := hds c (by simp)
      have ht := ih (fun x hx => hds x (by simp [hx]))
      simp [takeDigitRun, hc, ht]

theorem natChars_head (n : Nat) :
    ∃ c t, natChars n [] = c :: t ∧ isDigitCh c = true := by
  match h : natChars n [] with
  | [] => exact absurd h (natChars_ne_nil n)
  | c :: t =>
      exact ⟨c, t, rfl, natChars_all_digits n c (h ▸ List.mem_cons_self c t)⟩

theorem digit_neq (c : Char) (h : isDigitCh c = true) :
    c ≠ '-' ∧ c ≠ 'n' ∧ c ≠ 't' ∧ c ≠ 'f' ∧ c ≠ '"' ∧ c ≠ '[' ∧ c ≠ ']' ∧
      c ≠ lbrace ∧ c ≠ rbrace ∧ c ≠ ',' ∧ c ≠ ':' := by
  refine ⟨?_, ?_, ?_, ?_, ?_, ?_, ?_, ?_, ?_, ?_, ?_⟩ <;>
    (intro hc; rw [hc] at h; exact absurd h (by decide))

theorem digit_not_ws (c : Char) (h : isDigitCh c = true) : jsonWs c = false := by
  cases hw : jsonWs c
  · rfl
  · exfalso
    simp only [jsonWs, Bool.or_eq_true, decide_eq_true_eq] at hw
    rcases hw with ((rfl | rfl) | rfl) | rfl <;> exact absurd h (by decide)

theorem parseIntNum_render (i : Int) (rest : List Char) (h : stopsNum rest = true) :
    parseIntNum (intChars i ++ rest) = some (i, rest) := by
  have hds : ((natChars i.natAbs []).isEmpty) = false := by
    simp [List.isEmpty_iff, natChars_ne_nil]
  by_cases hneg : i < 0
  · have harg : intChars i ++ rest = '-' :: (natChars i.natAbs [] ++ rest) := by
      simp [intChars, hneg]
    rw [harg]
    simp only [parseIntNum]
    rw [takeDigitRun_all _ (natChars_all_digits _) _ (takeDigitRun_stop _ h)]
    simp only [hds, Bool.false_eq_true, if_false, Option.some.injEq, Prod.mk.injEq]
    refine ⟨?_, trivial⟩
    rw [digitsVal_natChars]
    omega
  · obtain ⟨c0, t0, h0, hc0⟩ := natChars_head i.natAbs
    have hminus : ¬(c0 = '-') := (digit_neq c0 hc0).1
    have harg : intChars i ++ rest = c0 :: (t0 ++ rest) := by
      simp [intChars, hneg, h0]
    have htd : takeDigitRun (c0 :: (t0 ++ rest)) = (c0 :: t0, rest) := by
      have := takeDigitRun_all (c0 :: t0)
          (fun x hx => natChars_all_digits i.natAbs x (h0 ▸ hx)) rest (takeDigitRun_stop _ h)
      simpa using this
    have hdv : digitsVal (c0 :: t0) = i.natAbs := by
      have := digitsVal_natChars i.natAbs
      rwa [h0] at this
    rw [harg]
    simp only [parseIntNum]
    split
    · rename_i rest2 heq
      rw [List.cons.injEq] at heq
      exact absurd heq.1 hminus
    · rw [htd]
      have hcne : ((c0 :: t0).isEmpty) = false := rfl
      simp only [hcne, Bool.false_eq_true, if_false, Option.some.injEq, Prod.mk.injEq]
      refine ⟨?_, trivial⟩
      rw [hdv]
      omega

/-! #### String codec lemmas -/

theorem hexChar_val : ∀ k : Nat, k < 16 → hexDigitVal (hexChar k) = some k := by decide

theorem parseStrBody_esc (c : Char) (acc rest : List Char) :
    parseStrBody acc (escChar c ++ rest) = parseStrBody (c :: acc) rest := by
  by_cases h1 : c = '"'
  · subst h1; rfl
  · by_cases h2 : c = '\\'
    · subst h2; rfl
    · by_cases h3 : c = '\n'
      · subst h3; rfl
      · by_cases h4 : c = '\r'
        · subst h4; rfl
        · by_cases h5 : c = '\t'
          · subst h5; rfl
          · by_cases h6 : c.toNat < 32 ∨ c = '<' ∨ c = '>' ∨ c = '&'
                ∨ c.toNat = 8232 ∨ c.toNat = 8233
            · rw [escChar, if_neg h1, if_neg h2, if_neg h3, if_neg h4, if_neg h5, if_pos h6]
              have hb : c.toNat < 65536 := by
                rcases h6 with h | h | h | h | h | h
                · omega
                · rw [h]; decide
                · rw [h]; decide
                · rw [h]; decide
                · omega
                · omega
              have e1 := hexChar_val (c.toNat / 4096 % 16) (Nat.mod_lt _ (by omega))
              have e2 := hexChar_val (c.toNat / 256 % 16) (Nat.mod_lt _ (by omega))
              have e3 := hexChar_val (c.toNat / 16 % 16) (Nat.mod_lt _ (by omega))
              have e4 := hexChar_val (c.toNat % 16) (Nat.mod_lt _ (by omega))
              have harith : ∀ t : Nat, t < 65536 →
                  ((t / 4096 % 16 * 16 + t / 256 % 16) * 16 + t / 16 % 16) * 16 + t % 16 = t := by
                intro t ht
                omega
              simp only [uEscape, List.cons_append, parseStrBody, hex4val, e1, e2, e3, e4,
                harith c.toNat hb, Char.ofNat_toNat]
              simp
            · rw [escChar, if_neg h1, if_neg h2, if_neg h3, if_neg h4, if_neg h5, if_neg h6]
              simp only [List.cons_append, List.nil_append]
              rw [parseStrBody]
              · simp [h1, h2]
              · exact fun a b c1 d r1 hc _ => absurd hc h2
              · exact fun e r1 hc _ => absurd hc h2

theorem parseStrBody_list (cs : List Char) :
    ∀ acc rest, parseStrBody acc (escList cs ++ '"' :: rest)
      = some (String.mk (acc.reverse ++ cs), rest) := by
  induction cs with
  | nil =>
      intro acc rest
      simp [escList, parseStrBody]
  | cons c cs ih =>
      intro acc rest
      rw [escList, List.append_assoc, parseStrBody_esc, ih]
      simp

theorem parseStrBody_render (s : String) (rest : List Char) :
    parseStrBody [] (escList s.toList ++ '"' :: rest) = some (s, rest) := by
  rw [parseStrBody_list]
  simp

/-! #### Whitespace, dispatch and congruence lemmas -/

theorem dropWs_skip (ws : List Char) (h : ∀ c ∈ ws, jsonWs c = true) (cs : List Char) :
    dropWs (ws ++ cs) = dropWs cs := by
  induction ws with
  | nil => rfl
  | cons w ws ih =>
      have hw : jsonWs w = true := h w (by simp)
      simp only [List.cons_append, dropWs, hw, if_true]
      exact ih (fun c hc => h c (by simp [hc]))

theorem dropWs_indent (d : Nat) (cs : List Char) :
    dropWs (indentChars d ++ cs) = dropWs cs := by
  refine dropWs_skip _ ?_ cs
  intro c hc
  rw [indentChars] at hc
  rw [List.eq_of_mem_replicate hc]
  rfl

theorem dropWs_head (c : Char) (cs : List Char) (h : jsonWs c = false) :
    dropWs (c :: cs) = c :: cs := by
  simp [dropWs, h]

theorem renderV_head (v : Value) (d : Nat) :
    ∃ c t, renderV v d = c :: t ∧ jsonWs c = false ∧ c ≠ ']' := by
  cases v with
  | null => exact ⟨'n', ['u', 'l', 'l'], by simp [renderV], by decide, by decide⟩
  | bool b =>
      cases b with
      | true => exact ⟨'t', ['r', 'u', 'e'], by simp [renderV], by decide, by decide⟩
      | false => exact ⟨'f', ['a', 'l', 's', 'e'], by simp [renderV], by decide, by decide⟩
  | str s => exact ⟨'"', escList s.toList ++ ['"'], by simp [renderV, strChars], by decide, by decide⟩
  | num i =>
      by_cases hneg : i < 0
      · refine ⟨'-', natChars i.natAbs [], ?_, by decide, by decide⟩
        simp [renderV, intChars, hneg]
      · obtain ⟨c0, t0, h0, hc0⟩ := natChars_head i.natAbs
        refine ⟨c0, t0, ?_, digit_not_ws c0 hc0, (digit_neq c0 hc0).2.2.2.2.2.2.1⟩
        simp [renderV, intChars, hneg, h0]
  | arr es =>
      cases es with
      | nil => exact ⟨'[', [']'], by simp [renderV], by decide, by decide⟩
      | cons e es =>
          exact ⟨'[', '\n' :: (indentChars (d + 1) ++ (renderItems e es d
            ++ '\n' :: (indentChars d ++ [']']))), by simp [renderV], by decide, by decide⟩
  | obj fs =>
      cases fs with
      | nil => exact ⟨lbrace, [rbrace], by simp [renderV], by decide, by decide⟩
      | cons f fs =>
          exact ⟨lbrace, '\n' :: (indentChars (d + 1) ++ (renderFields f fs d
            ++ '\n' :: (indentChars d ++ [rbrace]))), by simp [renderV], by decide, by decide⟩

theorem dropWs_renderV (v : Value) (d : Nat) (x : List Char) :
    dropWs (renderV v d ++ x) = renderV v d ++ x := by
  obtain ⟨c, t, hr, hws, _⟩ := renderV_head v d
  rw [hr, List.cons_append, dropWs_head _ _ hws]

theorem parseV_congr (f : Nat) (cs₁ cs₂ : List Char) (h : dropWs cs₁ = dropWs cs₂) :
    parseV f cs₁ = parseV f cs₂ := by
  cases f with
  | zero => rfl
  | succ f => simp only [parseV, h]

theorem parseItems_congr (f : Nat) (cs₁ cs₂ : List Char) (h : dropWs cs₁ = dropWs cs₂) :
    parseItems f cs₁ = parseItems f cs₂ := by
  cases f with
  | zero => rfl
  | succ f => simp only [parseItems, parseV_congr f cs₁ cs₂ h]

theorem parseFields_congr (f : Nat) (cs₁ cs₂ : List Char) (h : dropWs cs₁ = dropWs cs₂) :
    parseFields f cs₁ = parseFields f cs₂ := by
  cases f with
  | zero => rfl
  | succ f => simp only [parseFields, h]

theorem parseV_quoteStep (f : Nat) (r : List Char) :
    parseV (f + 1) ('"' :: r)
      = (match parseStrBody [] r with
         | some (s, r') => some (.str s, r')
         | none => none) := rfl

theorem parseV_bracketStep (f : Nat) (r : List Char) :
    parseV (f + 1) ('[' :: r)
      = (match dropWs r with
         | [] => none
         | c :: r' =>
             if c = ']' then some (.arr [], r')
             else
               match parseItems f (c :: r') with
               | some (es, r'') => some (.arr es, r'')
               | none => none) := rfl

theorem parseV_braceStep (f : Nat) (r : List Char) :
    parseV (f + 1) (lbrace :: r)
      = (match dropWs r with
         | [] => none
         | c2 :: r' =>
             if c2 = rbrace then some (.obj [], r')
             else
               match parseFields f (c2 :: r') with
               | some (fs, r'') => some (.obj fs, r'')
               | none => none) := rfl

theorem parseV_numStep (f : Nat) (c : Char) (r : List Char)
    (hws : jsonWs c = false) (hn : c ≠ 'n') (ht : c ≠ 't') (hf : c ≠ 'f')
    (hq : c ≠ '"') (hlb : c ≠ '[') (hbr : c ≠ lbrace)
    (hd : (decide (c = '-') || isDigitCh c) = true) :
    parseV (f + 1) (c :: r)
      = (match parseIntNum (c :: r) with
         | some (i, r') => some (.num i, r')
         | none => none) := by
  simp only [parseV]
  rw [dropWs_head c r hws]
  simp [hn, ht, hf, hq, hlb, hbr, hd]

/-! #### The parse/render round-trip -/

theorem dropWs_cons_nl (cs : List Char) : dropWs ('\n' :: cs) = dropWs cs := rfl

theorem dropWs_cons_sp (cs : List Char) : dropWs (' ' :: cs) = dropWs cs := rfl

theorem dropWs_quote (cs : List Char) : dropWs ('"' :: cs) = '"' :: cs := rfl

theorem dropWs_colon (cs : List Char) : dropWs (':' :: cs) = ':' :: cs := rfl

theorem dropWs_comma (cs : List Char) : dropWs (',' :: cs) = ',' :: cs := rfl

theorem dropWs_rbracket (cs : List Char) : dropWs (']' :: cs) = ']' :: cs := rfl

theorem dropWs_rbrace (cs : List Char) : dropWs (rbrace :: cs) = rbrace :: cs := rfl

theorem parseV_sp (f : Nat) (cs : List Char) : parseV f (' ' :: cs) = parseV f cs :=
  parseV_congr f _ _ (dropWs_cons_sp cs)

theorem parseV_nl (f : Nat) (cs : List Char) : parseV f ('\n' :: cs) = parseV f cs :=
  parseV_congr f _ _ (dropWs_cons_nl cs)

theorem parseV_indent (f d : Nat) (cs : List Char) :
    parseV f (indentChars d ++ cs) = parseV f cs :=
  parseV_congr f _ _ (dropWs_indent d cs)

theorem parseItems_nl (f : Nat) (cs : List Char) :
    parseItems f ('\n' :: cs) = parseItems f cs :=
  parseItems_congr f _ _ (dropWs_cons_nl cs)

theorem parseItems_indent (f d : Nat) (cs : List Char) :
    parseItems f (indentChars d ++ cs) = parseItems f cs :=
  parseItems_congr f _ _ (dropWs_indent d cs)

theorem parseFields_nl (f : Nat) (cs : List Char) :
    parseFields f ('\n' :: cs) = parseFields f cs :=
  parseFields_congr f _ _ (dropWs_cons_nl cs)

theorem parseFields_indent (f d : Nat) (cs : List Char) :
    parseFields f (indentChars d ++ cs) = parseFields f cs :=
  parseFields_congr f _ _ (dropWs_indent d cs)

theorem parseV_num (i : Int) (f : Nat) (rest : List Char) (h : stopsNum rest = true) :
    parseV (f + 1) (intChars i ++ rest) = some (.num i, rest) := by
  by_cases hneg : i < 0
  · have harg : intChars i ++ rest = '-' :: (natChars i.natAbs [] ++ rest) := by
      simp [intChars, hneg]
    rw [harg, parseV_numStep f '-' _ (by decide) (by decide) (by decide) (by decide)
        (by decide) (by decide) (by decide) (by decide), ← harg, parseIntNum_render i rest h]
  · obtain ⟨c0, t0, h0, hc0⟩ := natChars_head i.natAbs
    obtain ⟨hm, hn, ht, hf2, hq, hlb, hrb, hlbr, hrbr, hcm, hcl⟩ := digit_neq c0 hc0
    have harg : intChars i ++ rest = c0 :: (t0 ++ rest) := by
      simp [intChars, hneg, h0]
    rw [harg, parseV_numStep f c0 _ (digit_not_ws c0 hc0) hn ht hf2 hq hlb hlbr
        (by simp [hc0]), ← harg, parseIntNum_render i rest h]

theorem renderItems_head (e : Value) (es : List Value) (d : Nat) :
    ∃ c t, renderItems e es d = c :: t ∧ jsonWs c = false ∧ c ≠ ']' := by
  obtain ⟨c, t, hr, h1, h2⟩ := renderV_head e (d + 1)
  cases es with
  | nil => exact ⟨c, t, by simp [renderItems, hr], h1, h2⟩
  | cons x xs =>
      exact ⟨c, t ++ ',' :: '\n' :: (indentChars (d + 1) ++ renderItems x xs d),
        by simp [renderItems, hr], h1, h2⟩

theorem dropWs_renderItems (e : Value) (es : List Value) (d : Nat) (x : List Char) :
    dropWs (renderItems e es d ++ x) = renderItems e es d ++ x := by
  obtain ⟨c, t, hr, h1, _⟩ := renderItems_head e es d
  rw [hr, List.cons_append, dropWs_head _ _ h1]

theorem renderFields_head (kv : String × Value) (fs : List (String × Value)) (d : Nat) :
    ∃ t, renderFields kv fs d = '"' :: t := by
  obtain ⟨k, v⟩ := kv
  cases fs with
  | nil =>
      exact ⟨(escList k.toList ++ ['"']) ++ ':' :: ' ' :: renderV v (d + 1),
        by simp [renderFields, strChars]⟩
  | cons f fs =>
      exact ⟨((escList k.toList ++ ['"']) ++ ':' :: ' ' :: renderV v (d + 1))
          ++ ',' :: '\n' :: (indentChars (d + 1) ++ renderFields f fs d),
        by simp [renderFields, strChars]⟩

theorem dropWs_renderFields (kv : String × Value) (fs : List (String × Value)) (d : Nat)
    (x : List Char) :
    dropWs (renderFields kv fs d ++ x) = renderFields kv fs d ++ x := by
  obtain ⟨t, hr⟩ := renderFields_head kv fs d
  rw [hr, List.cons_append, dropWs_quote]

mutual

theorem rtV : ∀ (v : Value) (d fuel : Nat) (rest : List Char),
    vcost v ≤ fuel → stopsNum rest = true →
    parseV fuel (renderV v d ++ rest) = some (v, rest)
  | .null, d, fuel, rest, hc, _ => by
      cases fuel with
      | zero => simp only [vcost] at hc; omega
      | succ f =>
          simp only [renderV, List.cons_append, List.nil_append]
          rfl
  | .bool true, d, fuel, rest, hc, _ => by
      cases fuel with
      | zero => simp only [vcost] at hc; omega
      | succ f =>
          simp only [renderV, List.cons_append, List.nil_append]
          rfl
  | .bool false, d, fuel, rest, hc, _ => by
      cases fuel with
      | zero => simp only [vcost] at hc; omega
      | succ f =>
          simp only [renderV, List.cons_append, List.nil_append]
          rfl
  | .num i, d, fuel, rest, hc, hr => by
      cases fuel with
      | zero => simp only [vcost] at hc; omega
      | succ f =>
          simp only [renderV]
          exact parseV_num i f rest hr
  | .str s, d, fuel, rest, hc, _ => by
      cases fuel with
      | zero => simp only [vcost] at hc; omega
      | succ f =>
          simp only [renderV, strChars, List.cons_append]
          rw [parseV_quoteStep, List.append_assoc, List.singleton_append,
            parseStrBody_render]
  | .arr [], d, fuel, rest, hc, _ => by
      cases fuel with
      | zero => simp only [vcost] at hc; omega
      | succ f =>
          simp only [renderV, List.cons_append, List.nil_append]
          rw [parseV_bracketStep, dropWs_rbracket]
          simp
  | .arr (e :: es), d, fuel, rest, hc, _ => by
      cases fuel with
      | zero => simp only [vcost] at hc; omega
      | succ f =>
          have hcost : icost (e :: es) ≤ f := by
            simp only [vcost] at hc; omega
          obtain ⟨ci, ti, hri, hwsi, hnei⟩ := renderItems_head e es d
          simp only [renderV, List.cons_append]
          rw [parseV_bracketStep]
          simp only [dropWs_cons_nl, List.append_assoc, dropWs_indent, List.cons_append,
            List.singleton_append, List.nil_append, dropWs_renderItems]
          rw [hri, List.cons_append]
          simp only [if_neg hnei]
          rw [← List.cons_append, ← hri,
            rtItems e es d f rest hcost]
  | .obj [], d, fuel, rest, hc, _ => by
      cases fuel with
      | zero => simp only [vcost] at hc; omega
      | succ f =>
          simp only [renderV, List.cons_append, List.nil_append]
          rw [parseV_braceStep, dropWs_rbrace]
          simp
  | .obj (kv :: fs), d, fuel, rest, hc, _ => by
      cases fuel with
      | zero => simp only [vcost] at hc; omega
      | succ f =>
          have hcost : fcost (kv :: fs) ≤ f := by
            simp only [vcost] at hc; omega
          obtain ⟨tf, hrf⟩ := renderFields_head kv fs d
          simp only [renderV, List.cons_append]
          rw [parseV_braceStep]
          simp only [dropWs_cons_nl, List.append_assoc, dropWs_indent, List.cons_append,
            List.singleton_append, List.nil_append, dropWs_renderFields]
          rw [hrf, List.cons_append]
          simp only [if_neg (by decide : ¬('"' = rbrace))]
          rw [← List.cons_append, ← hrf,
            rtFields kv fs d f rest hcost]
  termination_by v _ _ _ _ _ => sizeOf v

theorem rtItems : ∀ (e : Value) (es : List Value) (d fuel : Nat) (rest : List Char),
    icost (e :: es) ≤ fuel →
    parseItems fuel (renderItems e es d ++ '\n' :: (indentChars d ++ ']' :: rest))
      = some (e :: es, rest)
  | e, [], d, fuel, rest, hc => by
      cases fuel with
      | zero => simp only [icost] at hc; omega
      | succ f =>
          have hce : vcost e ≤ f := by
            simp only [icost, vcost] at hc ⊢; omega
          simp only [renderItems, parseItems,
            rtV e (d + 1) f ('\n' :: (indentChars d ++ ']' :: rest)) hce rfl,
            dropWs_cons_nl, dropWs_indent, dropWs_rbracket]
  | e, x :: xs, d, fuel, rest, hc => by
      cases fuel with
      | zero => simp only [icost] at hc; omega
      | succ f =>
          have hce : vcost e ≤ f := by
            simp only [icost] at hc; omega
          have hcx : icost (x :: xs) ≤ f := by
            simp only [icost] at hc ⊢; omega
          have hsplit : renderItems e (x :: xs) d ++ '\n' :: (indentChars d ++ ']' :: rest)
              = renderV e (d + 1) ++ ',' :: '\n' :: (indentChars (d + 1)
                ++ (renderItems x xs d ++ '\n' :: (indentChars d ++ ']' :: rest))) := by
            simp [renderItems, List.append_assoc]
          rw [hsplit]
          simp only [parseItems,
            rtV e (d + 1) f (',' :: '\n' :: (indentChars (d + 1)
              ++ (renderItems x xs d ++ '\n' :: (indentChars d ++ ']' :: rest)))) hce rfl,
            dropWs_comma, parseItems_nl, parseItems_indent,
            rtItems x xs d f rest hcx]
  termination_by e es _ _ _ _ => 1 + sizeOf e + sizeOf es

theorem rtFields : ∀ (kv : String × Value) (fs : List (String × Value)) (d fuel : Nat)
    (rest : List Char),
    fcost (kv :: fs) ≤ fuel →
    parseFields fuel (renderFields kv fs d ++ '\n' :: (indentChars d ++ rbrace :: rest))
      = some (kv :: fs, rest)
  | (k, v), [], d, fuel, rest, hc => by
      cases fuel with
      | zero => simp only [fcost] at hc; omega
      | succ f =>
          have hcv : vcost v ≤ f := by
            simp only [fcost] at hc; omega
          have hsplit : renderFields (k, v) [] d ++ '\n' :: (indentChars d ++ rbrace :: rest)
              = '"' :: (escList k.toList ++ '"' :: (':' :: ' ' :: (renderV v (d + 1)
                  ++ '\n' :: (indentChars d ++ rbrace :: rest)))) := by
            simp [renderFields, strChars, List.append_assoc]
          rw [hsplit]
          simp only [parseFields, dropWs_quote, parseStrBody_render, dropWs_colon,
            parseV_sp, rtV v (d + 1) f ('\n' :: (indentChars d ++ rbrace :: rest)) hcv rfl,
            dropWs_cons_nl, dropWs_indent, dropWs_rbrace]
          rfl
  | (k, v), f2 :: fs, d, fuel, rest, hc => by
      cases fuel with
      | zero => simp only [fcost] at hc; omega
      | succ f =>
          have hcv : vcost v ≤ f := by
            simp only [fcost] at hc; omega
          have hcf : fcost (f2 :: fs) ≤ f := by
            simp only [fcost] at hc ⊢; omega
          have hsplit : renderFields (k, v) (f2 :: fs) d
                ++ '\n' :: (indentChars d ++ rbrace :: rest)
              = '"' :: (escList k.toList ++ '"' :: (':' :: ' ' :: (renderV v (d + 1)
                  ++ ',' :: '\n' :: (indentChars (d + 1) ++ (renderFields f2 fs d
                    ++ '\n' :: (indentChars d ++ rbrace :: rest)))))) := by
            simp [renderFields, strChars, List.append_assoc]
          rw [hsplit]
          simp only [parseFields, dropWs_quote, parseStrBody_render, dropWs_colon,
            parseV_sp, rtV v (d + 1) f (',' :: '\n' :: (indentChars (d + 1)
              ++ (renderFields f2 fs d ++ '\n' :: (indentChars d ++ rbrace :: rest)))) hcv rfl,
            dropWs_comma, parseFields_nl, parseFields_indent,
            rtFields f2 fs d f rest hcf]
  termination_by kv fs _ _ _ _ => 1 + sizeOf kv + sizeOf fs

end

/-! #### Fuel bounds and the stream loop -/

mutual

theorem vcost_le : ∀ (v : Value) (d : Nat), vcost v ≤ (renderV v d).length
  | .null, d => by simp [vcost, renderV]
  | .bool true, d => by simp [vcost, renderV]
  | .bool false, d => by simp [vcost, renderV]
  | .num i, d => by
      have hne := natChars_ne_nil i.natAbs
      cases hn : natChars i.natAbs [] with
      | nil => exact absurd hn hne
      | cons c t =>
          by_cases hneg : i < 0 <;>
            simp [vcost, renderV, intChars, hneg, hn]
  | .str s, d => by simp [vcost, renderV, strChars]
  | .arr [], d => by simp [vcost, icost, renderV]
  | .arr (e :: es), d => by
      have h := icost_le e es d
      simp only [vcost, renderV]
      simp only [List.length_cons, List.length_append]
      omega
  | .obj [], d => by simp [vcost, fcost, renderV]
  | .obj (kv :: fs), d => by
      have h := fcost_le kv fs d
      simp only [vcost, renderV]
      simp only [List.length_cons, List.length_append]
      omega
  termination_by v _ => sizeOf v

theorem icost_le : ∀ (e : Value) (es : List Value) (d : Nat),
    icost (e :: es) ≤ (renderItems e es d).length + 1
  | e, [], d => by
      have h := vcost_le e (d + 1)
      simp only [icost, renderItems]
      omega
  | e, x :: xs, d => by
      have h := vcost_le e (d + 1)
      have h2 := icost_le x xs d
      simp only [icost] at h2 ⊢
      simp only [renderItems, List.length_cons, List.length_append]
      omega
  termination_by e es _ => 1 + sizeOf e + sizeOf es

theorem fcost_le : ∀ (kv : String × Value) (fs : List (String × Value)) (d : Nat),
    fcost (kv :: fs) ≤ (renderFields kv fs d).length
  | (k, v), [], d => by
      have h := vcost_le v (d + 1)
      simp only [fcost, renderFields, strChars]
      simp only [List.length_cons, List.length_append]
      omega
  | (k, v), f2 :: fs, d => by
      have h := vcost_le v (d + 1)
      have h2 := fcost_le f2 fs d
      simp only [fcost] at h2 ⊢
      simp only [renderFields, strChars, List.length_cons, List.length_append]
      omega
  termination_by kv fs _ => 1 + sizeOf kv + sizeOf fs

end

/-- The stream loop on a single rendered document followed by the encoder's
newline: one document is decoded, then end-of-stream is reached. -/
theorem decodeDocsLoop_single (v : Value) (f : Nat) (hf : vcost v ≤ f + 2) :
    decodeDocsLoop (f + 2) (renderV v 0 ++ ['\n']) [] = some [v] := by
  obtain ⟨c, t, hr, hws, _⟩ := renderV_head v 0
  have hne : (dropWs (renderV v 0 ++ ['\n'])).isEmpty = false := by
    rw [dropWs_renderV, hr, List.cons_append]
    rfl
  simp only [decodeDocsLoop, hne, Bool.false_eq_true, if_false]
  rw [rtV v 0 (f + 2) ['\n'] hf rfl]
  simp only [decodeDocsLoop]
  rfl

/-- C9: for every value of the model, encoding it with the output encoder
(pretty-printed json with the trailing newline of `writeData`) and decoding
the produced text with the input decoder in format json (the document loop
plus the collapse rule of `readData`) yields the original value exactly. -/
theorem json_encode_decode_roundtrip :
    ∀ (path : String) (v : Value), readInputJson path (writeJson v) = .ok v := by
  intro path v
  have hlist : (writeJson v).toList = renderV v 0 ++ ['\n'] := rfl
  rw [readInputJson, decodeJsonDocs, hlist]
  have hlen : (renderV v 0 ++ ['\n']).length + 2 = ((renderV v 0).length + 1) + 2 := by
    simp
  rw [hlen, decodeDocsLoop_single v ((renderV v 0).length + 1)
      (by have := vcost_le v 0; omega)]
  rfl

end Opaq
